import Mathlib

/-!
# Verification of the F1 time-aware feature-engineering pipeline

Shallow embedding of `src/data_processing.py` (pandas) as Lean functions over
lists of records, together with proofs/refutations of the specification claims.

Modelling conventions:
* A table is a `List` of structure values; each pipeline stage adds fields
  (pandas: adds columns), modelled with structure `extends`.
* A numeric cell that may be missing (`NaN`) is `Option ℚ`; `pd.to_numeric
  (errors="coerce")` applied to a raw cell is the identity in this model
  (an unparsable raw value is represented as `none` from the start).
* A date cell is `Option Int` (days; `none` is `NaT`, i.e. an unparsable or
  missing date — `pd.to_datetime(errors="coerce")` is the identity here).
* `sort_values(kind="mergesort")` is a stable sort; a stable sort's output is
  uniquely determined by the key order, so we implement it as a structurally
  recursive insertion sort (`stableSortBy`) and prove the three
  characterizing properties (permutation, sortedness, stability).
  pandas sorts missing keys (`NaT`) *last* (`na_position="last"` default).
-/

namespace F1

/-- Key for chronological comparisons: parsed date (`none` = `NaT`) and raceId. -/
abbrev CKey := Option Int × Nat

/-- Strict "earlier date" on possibly-missing dates; `NaT` sorts last
(pandas `na_position="last"`). -/
def dlt : Option Int → Option Int → Bool
  | some a, some b => a < b
  | some _, none => true
  | none, _ => false

/-- Lexicographic non-strict order on (date, raceId): date ascending with
missing dates last, ties broken by raceId ascending. -/
def kle (a b : CKey) : Bool := dlt a.1 b.1 || (a.1 == b.1 && a.2 ≤ b.2)

/-- Lexicographic strict order on (date, raceId). -/
def klt (a b : CKey) : Bool := dlt a.1 b.1 || (a.1 == b.1 && a.2 < b.2)

theorem dlt_trans {a b c : Option Int} (h1 : dlt a b) (h2 : dlt b c) : dlt a c := by
  cases a <;> cases b <;> cases c <;> simp_all [dlt] <;> omega

theorem dlt_irrefl (a : Option Int) : dlt a a = false := by
  cases a <;> simp [dlt]

theorem dlt_total_of_ne {a b : Option Int} (h : a ≠ b) : dlt a b || dlt b a := by
  cases a <;> cases b <;> simp_all [dlt] <;> omega

theorem kle_total (a b : CKey) : kle a b || kle b a := by
  by_cases h : a.1 = b.1
  · simp [kle, h, dlt_irrefl]; omega
  · have := dlt_total_of_ne h
    rcases Bool.or_eq_true _ _ |>.mp this with h1 | h1 <;> simp [kle, h1]

theorem kle_trans {a b c : CKey} (h1 : kle a b) (h2 : kle b c) : kle a c := by
  simp only [kle, Bool.or_eq_true, Bool.and_eq_true, beq_iff_eq, decide_eq_true_eq] at *
  rcases h1 with h1 | ⟨e1, r1⟩ <;> rcases h2 with h2 | ⟨e2, r2⟩
  · exact Or.inl (dlt_trans h1 h2)
  · exact Or.inl (e2 ▸ h1)
  · exact Or.inl (e1 ▸ h2)
  · exact Or.inr ⟨e1.trans e2, le_trans r1 r2⟩

theorem kle_antisymm {a b : CKey} (h1 : kle a b) (h2 : kle b a) : a = b := by
  simp only [kle, Bool.or_eq_true, Bool.and_eq_true, beq_iff_eq, decide_eq_true_eq] at *
  rcases h1 with h1 | ⟨e1, r1⟩
  · rcases h2 with h2 | ⟨e2, r2⟩
    · cases ha : a.1 <;> cases hb : b.1 <;> simp_all [dlt] <;> omega
    · rw [e2] at h1; simp [dlt_irrefl] at h1
  · rcases h2 with h2 | ⟨e2, r2⟩
    · rw [e1] at h2; simp [dlt_irrefl] at h2
    · exact Prod.ext e1 (le_antisymm r1 r2)

theorem klt_irrefl (a : CKey) : klt a a = false := by
  simp [klt, dlt_irrefl]

theorem klt_of_kle_of_ne {a b : CKey} (h1 : kle a b) (h2 : a ≠ b) : klt a b := by
  simp only [kle, klt, Bool.or_eq_true, Bool.and_eq_true, beq_iff_eq,
    decide_eq_true_eq] at *
  rcases h1 with h1 | ⟨e1, r1⟩
  · exact Or.inl h1
  · refine Or.inr ⟨e1, lt_of_le_of_ne r1 ?_⟩
    intro hr; exact h2 (Prod.ext e1 hr)

theorem kle_of_klt {a b : CKey} (h : klt a b) : kle a b := by
  simp only [kle, klt, Bool.or_eq_true, Bool.and_eq_true, beq_iff_eq,
    decide_eq_true_eq] at *
  rcases h with h | ⟨e, r⟩
  · exact Or.inl h
  · exact Or.inr ⟨e, le_of_lt r⟩

theorem ne_of_klt {a b : CKey} (h : klt a b) : a ≠ b := by
  intro he; rw [he] at h; simp [klt_irrefl] at h

theorem not_klt_of_kle {a b : CKey} (h : kle a b) (hne : a ≠ b) : klt b a = false := by
  by_contra hc
  have hba : klt b a := by revert hc; cases klt b a <;> simp
  exact hne (kle_antisymm h (kle_of_klt hba))

/-! ## Aggregation helpers (pandas `mean`, `median`, `std`, `sum` semantics) -/

/-- Mean of a list of rationals; `none` on the empty list.  This is the
denotation of an expanding mean after `shift(1)` applied to the list of prior
(non-missing) values: missing when there are no prior values. -/
def meanO (l : List ℚ) : Option ℚ :=
  match l with
  | [] => none
  | _ => some (l.sum / l.length)

/-- Population variance (`ddof=0`) of a list of rationals; `none` on the empty
list.  The source computes the population *standard deviation*
(`expanding().std(ddof=0)`), i.e. the square root of this quantity; the square
root of a rational need not be rational, so the model tracks the radicand.
`√x` is missing iff `x` is, and zero iff `x` is, so definedness-based claims
are unaffected. -/
def pvarO (l : List ℚ) : Option ℚ :=
  match l with
  | [] => none
  | _ =>
    let m := l.sum / l.length
    some ((l.map (fun x => (x - m) ^ 2)).sum / l.length)

/-- pandas `Series.median` (skipna applied by the caller): `none` on the empty
list, middle element of the sorted list for odd length, average of the two
middle elements for even length. -/
def medianQ (l : List ℚ) : Option ℚ :=
  match l with
  | [] => none
  | _ =>
    let s := l.insertionSort (· ≤ ·)
    let n := s.length
    if n % 2 = 1 then some (s.getD (n / 2) 0)
    else some ((s.getD (n / 2 - 1) 0 + s.getD (n / 2) 0) / 2)

theorem meanO_perm {l₁ l₂ : List ℚ} (h : l₁.Perm l₂) : meanO l₁ = meanO l₂ := by
  cases h1 : l₁ with
  | nil => cases h2 : l₂ with
    | nil => rfl
    | cons b bs => subst h1; have := h.length_eq; simp [h2] at this
  | cons a as => cases h2 : l₂ with
    | nil => subst h2; have := h.length_eq; simp [h1] at this
    | cons b bs =>
      subst h1; subst h2
      simp only [meanO, h.sum_eq, h.length_eq]

/-! ## Stable sort

`stableSortBy le l`: insertion sort processing `l` from the right; with a total
transitive `le` this produces the unique stable sort of `l` by `le`. -/

/-- Insert `a` into `l`, before the first element `b` with `le a b`. -/
def insertBy (le : α → α → Bool) (a : α) : List α → List α
  | [] => [a]
  | b :: bs => if le a b then a :: b :: bs else b :: insertBy le a bs

/-- Stable sort by `le` (insertion sort). -/
def stableSortBy (le : α → α → Bool) : List α → List α
  | [] => []
  | a :: as => insertBy le a (stableSortBy le as)

theorem insertBy_perm (le : α → α → Bool) (a : α) (l : List α) :
    (insertBy le a l).Perm (a :: l) := by
  induction l with
  | nil => exact List.Perm.refl _
  | cons b bs ih =>
    by_cases h : le a b
    · simp [insertBy, h]
    · simp only [insertBy, h, if_neg, Bool.false_eq_true, not_false_eq_true, ite_false]
      exact (ih.cons b).trans (List.Perm.swap a b bs)

theorem stableSortBy_perm (le : α → α → Bool) (l : List α) :
    (stableSortBy le l).Perm l := by
  induction l with
  | nil => exact List.Perm.refl _
  | cons a as ih =>
    exact (insertBy_perm le a (stableSortBy le as)).trans (ih.cons a)

theorem insertBy_pairwise (le : α → α → Bool)
    (htot : ∀ x y, le x y || le y x)
    (htrans : ∀ x y z, le x y → le y z → le x z)
    (a : α) (l : List α) (hl : l.Pairwise (fun x y => le x y = true)) :
    (insertBy le a l).Pairwise (fun x y => le x y = true) := by
  induction l with
  | nil => simp [insertBy]
  | cons b bs ih =>
    rcases List.pairwise_cons.mp hl with ⟨hb, hbs⟩
    by_cases h : le a b
    · simp only [insertBy, h, if_pos]
      refine List.pairwise_cons.mpr ⟨?_, hl⟩
      intro x hx
      rcases hx with _ | hx
      · exact h
      · exact htrans a b x h (hb x (by assumption))
    · simp only [insertBy, h, Bool.false_eq_true, not_false_eq_true, if_neg]
      refine List.pairwise_cons.mpr ⟨?_, ih hbs⟩
      intro x hx
      have hmem : x = a ∨ x ∈ bs :=
        List.mem_cons.mp ((insertBy_perm le a bs).mem_iff.mp hx)
      rcases hmem with hmem | hmem
      · subst hmem
        have h2 := htot x b
        revert h2 h
        cases le x b <;> cases le b x <;> simp
      · exact hb x hmem

theorem stableSortBy_pairwise (le : α → α → Bool)
    (htot : ∀ x y, le x y || le y x)
    (htrans : ∀ x y z, le x y → le y z → le x z)
    (l : List α) :
    (stableSortBy le l).Pairwise (fun x y => le x y = true) := by
  induction l with
  | nil => simp [stableSortBy]
  | cons a as ih => exact insertBy_pairwise le htot htrans a _ ih

theorem insertBy_filter_pos (le : α → α → Bool) (q : α → Bool) (a : α) (l : List α)
    (hqa : q a = true) (hq : ∀ b, q b = true → le a b = true) :
    (insertBy le a l).filter q = a :: l.filter q := by
  induction l with
  | nil => simp [insertBy, hqa]
  | cons b bs ih =>
    by_cases h : le a b
    · simp [insertBy, h, hqa]
    · have hqb : q b = false := by
        by_contra hc
        have : q b = true := by revert hc; cases q b <;> simp
        exact h (hq b this)
      simp [insertBy, h, List.filter_cons, hqb, ih]

theorem insertBy_filter_neg (le : α → α → Bool) (q : α → Bool) (a : α) (l : List α)
    (hqa : q a = false) :
    (insertBy le a l).filter q = l.filter q := by
  induction l with
  | nil => simp [insertBy, hqa]
  | cons b bs ih =>
    by_cases h : le a b
    · simp [insertBy, h, hqa]
    · by_cases hqb : q b = true
      · simp [insertBy, h, List.filter_cons, hqb, ih]
      · have : q b = false := by revert hqb; cases q b <;> simp
        simp [insertBy, h, List.filter_cons, this, ih]

/-- Stability: within each key-equivalence class picked out by `q`
(all of whose members compare `le` both ways), the sorted list preserves the
original relative order. -/
theorem stableSortBy_filter (le : α → α → Bool) (q : α → Bool) (l : List α)
    (hq : ∀ a b, q a = true → q b = true → le a b = true) :
    (stableSortBy le l).filter q = l.filter q := by
  induction l with
  | nil => rfl
  | cons a as ih =>
    by_cases hqa : q a = true
    · rw [stableSortBy, insertBy_filter_pos le q a _ hqa (fun b hb => hq a b hqa hb),
        ih, List.filter_cons_of_pos hqa]
    · have hqa' : q a = false := by revert hqa; cases q a <;> simp
      rw [stableSortBy, insertBy_filter_neg le q a _ hqa', ih,
        List.filter_cons_of_neg (by simp [hqa'])]

/-! ## Data model

One structure per pipeline stage; `extends` models pandas' strictly-additive
columns.  Source: §3 of `data_processing.py`'s docstrings and the frames the
functions produce. -/

/-- One raw driver-race result row (the input table's schema:
`driverId, constructorId, raceId, date, grid, positionOrder, points, statusId,
year`).  Possibly-missing/unparsable numeric cells are `Option ℚ`; the date
cell is `Option Int` (`none` = unparsable, i.e. `NaT` after
`pd.to_datetime(errors="coerce")`). -/
structure Entry where
  driverId : Nat
  constructorId : Nat
  raceId : Nat
  date : Option Int
  grid : Option ℚ
  positionOrder : Option ℚ
  points : Option ℚ
  statusId : Nat
  year : Int
deriving Repr, DecidableEq

/-- After `clean_grid`: adds `grid_clean`. -/
structure GridRow extends Entry where
  grid_clean : Option ℚ
deriving Repr, DecidableEq

/-- After `add_race_features`: adds `position_gain` and `is_podium`. -/
structure RaceFeatRow extends GridRow where
  position_gain : Option ℚ
  is_podium : Int
deriving Repr, DecidableEq

/-- After `attach_status_text`: adds `status_text` (missing when the left join
found no status row). -/
structure StatusRow extends RaceFeatRow where
  status_text : Option String
deriving Repr, DecidableEq

/-- After `add_dnf_dns_flags`: adds the three outcome flags. -/
structure FlagRow extends StatusRow where
  is_finished : Int
  is_dnf : Int
  is_dns : Int
deriving Repr, DecidableEq

/-- After `add_time_aware_aggregates`: adds the six historical features.  The
three constructor features are `Option`-al because they come from a left join
(missing when the row's `(constructorId, raceId)` matched no race-level
aggregate, e.g. when the row's date is `NaT`). -/
structure AggRow extends FlagRow where
  driver_races_past : Nat
  driver_avg_points_past : Option ℚ
  driver_consistency_past : Option ℚ
  constructor_races_past : Option Nat
  constructor_strength_past : Option ℚ
  constructor_avg_finish_past : Option ℚ
deriving Repr, DecidableEq

/-- Race-level constructor aggregate (`cons_race` in the source after the
groupby/agg step): one row per `(constructorId, raceId, date)` group; rows with
`NaT` dates are dropped by pandas `groupby` (`dropna=True` default), so `date`
is a plain `Int` here. -/
structure ConsRace where
  constructorId : Nat
  raceId : Nat
  date : Int
  constructor_points : ℚ
  constructor_mean_finish : Option ℚ
deriving Repr, DecidableEq

/-- `cons_race` after the expanding statistics (Step 2 of the source). -/
structure ConsFeat extends ConsRace where
  constructor_races_past : Nat
  constructor_strength_past : Option ℚ
  constructor_avg_finish_past : Option ℚ
deriving Repr, DecidableEq

/-! ## Pipeline stages 1-4 -/

/-- `clean_grid`: `grid` coerced to numeric (identity in this model) and
`grid_clean = grid.replace(0, nan)`. -/
def clean_grid (t : List Entry) : List GridRow :=
  t.map (fun e =>
    { toEntry := e
      grid_clean := if e.grid = some 0 then none else e.grid })

/-- `add_race_features`: coerces `positionOrder`/`points` (identity here),
adds `position_gain = grid_clean - positionOrder` (missing-propagating) and
`is_podium = (positionOrder <= 3)` (a `NaN` comparison is `False`, hence 0).
In the pipeline `grid_clean` already exists, so the `clean_grid` fallback
branch of the source is not taken. -/
def add_race_features (t : List GridRow) : List RaceFeatRow :=
  t.map (fun r =>
    { toGridRow := r
      position_gain :=
        match r.grid_clean, r.positionOrder with
        | some g, some p => some (g - p)
        | _, _ => none
      is_podium :=
        match r.positionOrder with
        | some p => if p ≤ 3 then 1 else 0
        | none => 0 })

/-- `attach_status_text`: left-merge of the status lookup (`statusId`,
`status` renamed to `status_text`) on `statusId`.  pandas `merge(how="left")`
emits, for each left row in order, one output row per matching right row (in
right-table order), or a single row with a missing `status_text` when there is
no match.  In the pipeline `statusId` is present, so the early-return branch is
not taken. -/
def attach_status_text (t : List RaceFeatRow) (status : List (Nat × String)) :
    List StatusRow :=
  t.flatMap (fun r =>
    match status.filter (fun s => s.1 == r.statusId) with
    | [] => [{ toRaceFeatRow := r, status_text := none }]
    | ms => ms.map (fun s => { toRaceFeatRow := r, status_text := some s.2 }))

/-- ASCII lowercase of a string (`Series.str.lower()`). -/
def lowerStr (s : String) : String := String.mk (s.data.map Char.toLower)

/-- Substring containment (`Series.str.contains` with a plain pattern). -/
def containsSub (nee : List Char) : List Char → Bool
  | [] => nee.isEmpty
  | c :: cs => List.isPrefixOf nee (c :: cs) || containsSub nee cs

/-- `add_dnf_dns_flags`, `status_text`-present branch:
`s = status_text.astype(str).str.lower()` (pandas renders a missing value as
the string `"nan"`), then `finished = s.isin(["finished", "classified"])`,
`dns = s.contains("did not start")`, `dnf = ~finished & ~dns`. -/
def add_dnf_dns_flags (t : List StatusRow) : List FlagRow :=
  t.map (fun r =>
    let s := lowerStr (r.status_text.getD "nan")
    let fin : Bool := s == "finished" || s == "classified"
    let dns : Bool := containsSub "did not start".data s.data
    { toStatusRow := r
      is_finished := if fin then 1 else 0
      is_dnf := if !fin && !dns then 1 else 0
      is_dns := if dns then 1 else 0 })

/-! ## Stage 5: `_time_sort` and `add_time_aware_aggregates` -/

/-- Chronological key of a row: (parsed date, raceId). -/
def ckey (d : Option Int) (r : Nat) : CKey := (d, r)

/-- `_time_sort`: parse `date` (identity in this model) and stably sort by
(date, raceId), missing dates last (pandas `na_position="last"` default).
The source uses `kind="mergesort"`; any stable sort produces the same output. -/
def time_sort (t : List FlagRow) : List FlagRow :=
  stableSortBy (fun a b => kle (ckey a.date a.raceId) (ckey b.date b.raceId)) t

/-- The numeric preparation of `add_time_aware_aggregates`:
`points = to_numeric(points).fillna(0.0)` and
`positionOrder = to_numeric(positionOrder)` (identity on our representation). -/
def prepNums (r : FlagRow) : FlagRow :=
  { r with points := some (r.points.getD 0) }

/-- Step 1 groupby keys: the distinct `(constructorId, raceId, date)` triples
with a parseable date (pandas `groupby` drops groups whose key contains `NaT`),
in ascending key order (`groupby(sort=True)` default). -/
def consKeys (s : List FlagRow) : List (Nat × Nat × Int) :=
  stableSortBy
    (fun a b =>
      a.1 < b.1 || (a.1 == b.1 && (a.2.1 < b.2.1 || (a.2.1 == b.2.1 && a.2.2 ≤ b.2.2))))
    ((s.filterMap (fun e => e.date.map (fun d => (e.constructorId, e.raceId, d)))).dedup)

/-- Step 1 aggregation for one group key: `constructor_points = sum(points)`
over the group's rows, `constructor_mean_finish = mean(positionOrder)` with
missing values skipped (pandas mean; `NaN` when every value is missing). -/
def consAgg (s : List FlagRow) (k : Nat × Nat × Int) : ConsRace :=
  let members := s.filter (fun e =>
    e.constructorId == k.1 && e.raceId == k.2.1 && e.date == some k.2.2)
  { constructorId := k.1
    raceId := k.2.1
    date := k.2.2
    constructor_points := (members.map (fun e => e.points.getD 0)).sum
    constructor_mean_finish := meanO (members.filterMap (fun e => e.positionOrder)) }

/-- Step 1 of the constructor pipeline: groupby-aggregate, then stable sort of
the race-level rows by (date, raceId) (`sort_values(["date","raceId"],
kind="mergesort")`). -/
def consRaceRows (s : List FlagRow) : List ConsRace :=
  stableSortBy
    (fun a b => kle (ckey (some a.date) a.raceId) (ckey (some b.date) b.raceId))
    ((consKeys s).map (consAgg s))

/-- Step 2, expanding statistics per constructor over the chronologically
ordered race-level rows.  pandas `groupby.cumcount` / `transform(expanding
mean shift(1))` denote, for the row at position `i`, aggregates over the
*prior* rows of the same group: we carry the list of already-seen rows. -/
def consExpand : List ConsRace → List ConsRace → List ConsFeat
  | _, [] => []
  | past, c :: rest =>
    let prior := past.filter (fun x => x.constructorId == c.constructorId)
    { toConsRace := c
      constructor_races_past := prior.length
      constructor_strength_past := meanO (prior.map (fun x => x.constructor_points))
      constructor_avg_finish_past :=
        meanO (prior.filterMap (fun x => x.constructor_mean_finish)) }
      :: consExpand (past ++ [c]) rest

/-- The fully processed race-level constructor table (Steps 1 and 2). -/
def consTable (s : List FlagRow) : List ConsFeat :=
  consExpand [] (consRaceRows s)

/-- The output rows generated for one driver-level row `e` whose strictly
preceding rows (in sorted order) are `past`: driver features from the prior
same-driver rows (`groupby("driverId")` with `cumcount` / expanding mean /
expanding population std, each `shift(1)`), then the left merge with the
race-level constructor table on `(constructorId, raceId)` — one output row per
match, or one row with missing constructor features when there is no match. -/
def aggRowsFor (cons : List ConsFeat) (past : List FlagRow) (e : FlagRow) :
    List AggRow :=
  let dprior := past.filter (fun x => x.driverId == e.driverId)
  let drp := dprior.length
  let dav := meanO (dprior.map (fun x => x.points.getD 0))
  let dco := pvarO (dprior.filterMap (fun x => x.positionOrder))
  match cons.filter (fun c => c.constructorId == e.constructorId && c.raceId == e.raceId) with
  | [] =>
    [{ toFlagRow := e
       driver_races_past := drp
       driver_avg_points_past := dav
       driver_consistency_past := dco
       constructor_races_past := none
       constructor_strength_past := none
       constructor_avg_finish_past := none }]
  | ms =>
    ms.map (fun m =>
      { toFlagRow := e
        driver_races_past := drp
        driver_avg_points_past := dav
        driver_consistency_past := dco
        constructor_races_past := some m.constructor_races_past
        constructor_strength_past := m.constructor_strength_past
        constructor_avg_finish_past := m.constructor_avg_finish_past })

/-- Driver-level traversal in chronological order, carrying the prefix of
already-processed rows (the denotation of per-group expanding/shift). -/
def aggExpand (cons : List ConsFeat) : List FlagRow → List FlagRow → List AggRow
  | _, [] => []
  | past, e :: rest => aggRowsFor cons past e ++ aggExpand cons (past ++ [e]) rest

/-- `add_time_aware_aggregates`: `_time_sort`, numeric preparation, driver
expanding features, race-level constructor features, left merge back. -/
def add_time_aware_aggregates (t : List FlagRow) : List AggRow :=
  let s := (time_sort t).map prepNums
  aggExpand (consTable s) [] s

/-! ## Stage 6: `final_clean` and `get_train_medians` -/

/-- Lookup in the optional training-medians dict; `none` both when no dict was
supplied (Python `None`, falsy) and when the key is absent (the empty dict is
falsy too, and has no keys). -/
def tmLookup (tm : Option (List (String × Option ℚ))) (c : String) :
    Option (Option ℚ) :=
  tm.bind (fun l => l.lookup c)

/-- `final_clean`: zero-fill `driver_avg_points_past` and
`constructor_strength_past`; median-fill `driver_consistency_past` and
`constructor_avg_finish_past` (training median when supplied and present in
the dict, else the column's own median over its non-missing values —
`fillna(NaN)` leaves a missing value missing in both branches);
`grid_clean` already exists, and the flag columns are already integers, so
those branches are identity here. -/
def final_clean (t : List AggRow) (tm : Option (List (String × Option ℚ))) :
    List AggRow :=
  let mdc : Option ℚ :=
    match tmLookup tm "driver_consistency_past" with
    | some v => v
    | none => medianQ (t.filterMap (fun r => r.driver_consistency_past))
  let mca : Option ℚ :=
    match tmLookup tm "constructor_avg_finish_past" with
    | some v => v
    | none => medianQ (t.filterMap (fun r => r.constructor_avg_finish_past))
  t.map (fun r =>
    { r with
      driver_avg_points_past := some (r.driver_avg_points_past.getD 0)
      constructor_strength_past := some (r.constructor_strength_past.getD 0)
      driver_consistency_past := r.driver_consistency_past.orElse (fun _ => mdc)
      constructor_avg_finish_past := r.constructor_avg_finish_past.orElse (fun _ => mca) })

/-- `get_train_medians`: restrict to rows with `train_years[0] <= year <=
train_years[1]`, return the dict of the two columns' medians (pandas median
skips missing values; the median of an empty selection is `NaN`). -/
def get_train_medians (t : List AggRow) (lo hi : Int) : List (String × Option ℚ) :=
  let tr := t.filter (fun r => lo ≤ r.year && r.year ≤ hi)
  [("driver_consistency_past", medianQ (tr.filterMap (fun r => r.driver_consistency_past))),
   ("constructor_avg_finish_past", medianQ (tr.filterMap (fun r => r.constructor_avg_finish_past)))]

/-! ## Infrastructure lemmas -/

/-- Chronological key of a driver-level row. -/
def keyF (r : FlagRow) : CKey := (r.date, r.raceId)

/-- Chronological key of a race-level constructor row. -/
def keyC (c : ConsRace) : CKey := (some c.date, c.raceId)

theorem prepNums_keyF (r : FlagRow) : keyF (prepNums r) = keyF r := rfl

/-- Decomposition of membership in the prefix-carrying driver traversal. -/
theorem mem_aggExpand {cons : List ConsFeat} {past l : List FlagRow} {o : AggRow}
    (h : o ∈ aggExpand cons past l) :
    ∃ pre e suf, l = pre ++ e :: suf ∧ o ∈ aggRowsFor cons (past ++ pre) e := by
  induction l generalizing past with
  | nil => simp [aggExpand] at h
  | cons a as ih =>
    rw [aggExpand, List.mem_append] at h
    rcases h with h | h
    · exact ⟨[], a, as, rfl, by simpa using h⟩
    · obtain ⟨pre, e, suf, hl, hm⟩ := ih h
      exact ⟨a :: pre, e, suf, by simp [hl], by simpa [List.append_assoc] using hm⟩

/-- Converse: every row of the list produces its `aggRowsFor` output rows. -/
theorem aggExpand_mem (cons : List ConsFeat) (past pre suf : List FlagRow)
    {e : FlagRow} {o : AggRow}
    (h : o ∈ aggRowsFor cons (past ++ pre) e) :
    o ∈ aggExpand cons past (pre ++ e :: suf) := by
  induction pre generalizing past with
  | nil =>
    rw [List.nil_append, aggExpand, List.mem_append]
    exact Or.inl (by simpa using h)
  | cons a as ih =>
    rw [List.cons_append, aggExpand, List.mem_append]
    refine Or.inr (ih (past ++ [a]) ?_)
    rw [List.append_assoc, List.singleton_append]
    exact h

/-- The constructor-level traversal keeps the underlying race-level rows. -/
theorem consExpand_map (past l : List ConsRace) :
    (consExpand past l).map (fun f => f.toConsRace) = l := by
  induction l generalizing past with
  | nil => rfl
  | cons c cs ih => simp [consExpand, ih]

/-- Decomposition of membership in the constructor-level traversal. -/
theorem mem_consExpand {past l : List ConsRace} {f : ConsFeat}
    (h : f ∈ consExpand past l) :
    ∃ pre c suf, l = pre ++ c :: suf ∧
      f = { toConsRace := c
            constructor_races_past :=
              ((past ++ pre).filter (fun x => x.constructorId == c.constructorId)).length
            constructor_strength_past :=
              meanO (((past ++ pre).filter (fun x => x.constructorId == c.constructorId)).map
                (fun x => x.constructor_points))
            constructor_avg_finish_past :=
              meanO (((past ++ pre).filter (fun x => x.constructorId == c.constructorId)).filterMap
                (fun x => x.constructor_mean_finish)) } := by
  induction l generalizing past with
  | nil => simp [consExpand] at h
  | cons a as ih =>
    rw [consExpand, List.mem_cons] at h
    rcases h with h | h
    · exact ⟨[], a, as, rfl, by simpa using h⟩
    · obtain ⟨pre, c, suf, hl, hf⟩ := ih h
      refine ⟨a :: pre, c, suf, by simp [hl], ?_⟩
      rw [List.append_assoc, List.singleton_append] at hf
      exact hf

/-- Membership in `consExpand` from a decomposition of the input list. -/
theorem consExpand_mem (past pre : List ConsRace) {suf : List ConsRace} {c : ConsRace} :
    ({ toConsRace := c
       constructor_races_past :=
         ((past ++ pre).filter (fun x => x.constructorId == c.constructorId)).length
       constructor_strength_past :=
         meanO (((past ++ pre).filter (fun x => x.constructorId == c.constructorId)).map
           (fun x => x.constructor_points))
       constructor_avg_finish_past :=
         meanO (((past ++ pre).filter (fun x => x.constructorId == c.constructorId)).filterMap
           (fun x => x.constructor_mean_finish)) } : ConsFeat)
      ∈ consExpand past (pre ++ c :: suf) := by
  induction pre generalizing past with
  | nil => rw [List.nil_append, consExpand]; exact List.mem_cons.mpr (Or.inl (by simp))
  | cons a as ih =>
    rw [List.cons_append, consExpand]
    refine List.mem_cons.mpr (Or.inr ?_)
    have h := ih (past ++ [a])
    rw [List.append_assoc, List.singleton_append] at h
    exact h

/-- All rows emitted for a driver-level row share its base fields and its
driver features. -/
theorem aggRowsFor_base {cons : List ConsFeat} {past : List FlagRow}
    {e : FlagRow} {o : AggRow} (h : o ∈ aggRowsFor cons past e) :
    o.toFlagRow = e ∧
    o.driver_races_past = (past.filter (fun x => x.driverId == e.driverId)).length ∧
    o.driver_avg_points_past =
      meanO ((past.filter (fun x => x.driverId == e.driverId)).map
        (fun x => x.points.getD 0)) ∧
    o.driver_consistency_past =
      pvarO ((past.filter (fun x => x.driverId == e.driverId)).filterMap
        (fun x => x.positionOrder)) := by
  rw [aggRowsFor] at h
  rcases hm : cons.filter
      (fun c => c.constructorId == e.constructorId && c.raceId == e.raceId) with _ | ⟨m, ms⟩
  · rw [hm] at h; simp at h; subst h; exact ⟨rfl, rfl, rfl, rfl⟩
  · rw [hm] at h
    simp only [List.mem_map] at h
    obtain ⟨m', _, ho⟩ := h
    subst ho; exact ⟨rfl, rfl, rfl, rfl⟩

/-- The constructor features of an emitted row: either the left join found no
match and they are all missing, or they are copied from a matching race-level
row. -/
theorem aggRowsFor_cons {cons : List ConsFeat} {past : List FlagRow}
    {e : FlagRow} {o : AggRow} (h : o ∈ aggRowsFor cons past e) :
    (cons.filter (fun c => c.constructorId == e.constructorId && c.raceId == e.raceId) = [] ∧
      o.constructor_races_past = none ∧
      o.constructor_strength_past = none ∧
      o.constructor_avg_finish_past = none) ∨
    (∃ m ∈ cons.filter (fun c => c.constructorId == e.constructorId && c.raceId == e.raceId),
      o.constructor_races_past = some m.constructor_races_past ∧
      o.constructor_strength_past = m.constructor_strength_past ∧
      o.constructor_avg_finish_past = m.constructor_avg_finish_past) := by
  rw [aggRowsFor] at h
  rcases hm : cons.filter
      (fun c => c.constructorId == e.constructorId && c.raceId == e.raceId) with _ | ⟨m, ms⟩
  · rw [hm] at h; simp at h; subst h; exact Or.inl ⟨hm, rfl, rfl, rfl⟩
  · rw [hm] at h
    simp only [List.mem_map] at h
    obtain ⟨m', hm', ho⟩ := h
    subst ho
    exact Or.inr ⟨m', by rw [hm]; exact hm', rfl, rfl, rfl⟩

/-- `aggRowsFor` always emits at least one row (a left join never drops a
left row). -/
theorem aggRowsFor_ne_nil (cons : List ConsFeat) (past : List FlagRow)
    (e : FlagRow) : aggRowsFor cons past e ≠ [] := by
  rw [aggRowsFor]
  rcases hm : cons.filter
      (fun c => c.constructorId == e.constructorId && c.raceId == e.raceId) with _ | ⟨m, ms⟩
  · rw [hm]; simp
  · rw [hm]; simp

/-- In a list sorted by (date, raceId) in which same-group rows have pairwise
distinct keys, the rows of a group strictly key-below a row `e` are exactly
the group's rows in the prefix before `e`. -/
theorem filter_sorted_split {α : Type} (key : α → CKey) (g : α → Nat)
    (pre suf : List α) (e : α)
    (hs : (pre ++ e :: suf).Pairwise (fun a b => kle (key a) (key b) = true))
    (hd : (pre ++ e :: suf).Pairwise (fun a b => g a = g b → key a ≠ key b)) :
    (pre ++ e :: suf).filter (fun x => g x == g e && klt (key x) (key e))
      = pre.filter (fun x => g x == g e) := by
  obtain ⟨hs1, hs2, hs3⟩ := List.pairwise_append.mp hs
  obtain ⟨hd1, hd2, hd3⟩ := List.pairwise_append.mp hd
  rw [List.filter_append]
  have h2 : (e :: suf).filter (fun x => g x == g e && klt (key x) (key e)) = [] := by
    rw [List.filter_eq_nil_iff]
    intro x hx
    rcases List.mem_cons.mp hx with hx | hx
    · subst hx; simp [klt_irrefl]
    · intro hc
      simp only [Bool.and_eq_true, beq_iff_eq] at hc
      obtain ⟨hg, hk⟩ := hc
      have hle : kle (key e) (key x) := (List.pairwise_cons.mp hs2).1 x hx
      have hne : key e ≠ key x := (List.pairwise_cons.mp hd2).1 x hx hg.symm
      have := not_klt_of_kle hle hne
      rw [this] at hk
      exact Bool.false_ne_true hk
  rw [h2, List.append_nil]
  refine List.filter_congr ?_
  intro x hx
  by_cases hg : g x = g e
  · have hle : kle (key x) (key e) := hs3 x hx e (List.mem_cons_self e suf)
    have hne : key x ≠ key e := hd3 x hx e (List.mem_cons_self e suf) hg
    simp [hg, klt_of_kle_of_ne hle hne]
  · simp [hg]

/-- The sorted, numerically prepared driver-level table used inside
`add_time_aware_aggregates`. -/
def sPrep (t : List FlagRow) : List FlagRow := (time_sort t).map prepNums

theorem add_time_aware_aggregates_eq (t : List FlagRow) :
    add_time_aware_aggregates t = aggExpand (consTable (sPrep t)) [] (sPrep t) := rfl

theorem sPrep_perm (t : List FlagRow) : (sPrep t).Perm (t.map prepNums) :=
  (stableSortBy_perm _ t).map prepNums

theorem sPrep_sorted (t : List FlagRow) :
    (sPrep t).Pairwise (fun a b => kle (keyF a) (keyF b) = true) := by
  rw [sPrep, List.pairwise_map]
  exact stableSortBy_pairwise (fun a b => kle (keyF a) (keyF b))
    (fun x y => kle_total _ _) (fun x y z hxy hyz => kle_trans hxy hyz) t

theorem mem_sPrep {t : List FlagRow} {e : FlagRow} (h : e ∈ sPrep t) :
    ∃ x ∈ t, e = prepNums x := by
  have := (sPrep_perm t).mem_iff.mp h
  simpa [List.mem_map, eq_comm] using this

/-- Hypothesis: the date cell is functionally determined by `raceId`
(in particular every row of one race carries one date), as in well-formed
Ergast data where the date is an attribute of the race. -/
def DateByRace (t : List FlagRow) : Prop :=
  ∀ e1 ∈ t, ∀ e2 ∈ t, e1.raceId = e2.raceId → e1.date = e2.date

theorem dateByRace_sPrep {t : List FlagRow} (h : DateByRace t) :
    DateByRace (sPrep t) := by
  intro e1 h1 e2 h2 hr
  obtain ⟨x1, hx1, he1⟩ := mem_sPrep h1
  obtain ⟨x2, hx2, he2⟩ := mem_sPrep h2
  subst he1; subst he2
  exact h x1 hx1 x2 hx2 hr

theorem consKeys_nodup (s : List FlagRow) : (consKeys s).Nodup := by
  rw [consKeys]
  exact ((stableSortBy_perm _ _).nodup_iff).mpr (List.nodup_dedup _)

theorem mem_consKeys {s : List FlagRow} {k : Nat × Nat × Int} :
    k ∈ consKeys s ↔
      ∃ e ∈ s, e.constructorId = k.1 ∧ e.raceId = k.2.1 ∧ e.date = some k.2.2 := by
  rw [consKeys]
  rw [(stableSortBy_perm _ _).mem_iff, List.mem_dedup, List.mem_filterMap]
  constructor
  · rintro ⟨e, he, hk⟩
    rcases hd : e.date with _ | d
    · rw [hd] at hk; simp [Option.map] at hk
    · rw [hd] at hk
      simp only [Option.map] at hk
      rw [Option.some_inj] at hk
      exact ⟨e, he, by rw [← hk], by rw [← hk], by rw [hd, ← hk]⟩
  · rintro ⟨e, he, hc, hr, hd⟩
    exact ⟨e, he, by rw [hd, hc, hr]; rfl⟩

/-- Under `DateByRace`, two group keys agreeing on (constructorId, raceId)
are equal. -/
theorem consKeys_key_det {s : List FlagRow} (h : DateByRace s) :
    ∀ k1 ∈ consKeys s, ∀ k2 ∈ consKeys s,
      k1.1 = k2.1 → k1.2.1 = k2.2.1 → k1 = k2 := by
  intro k1 h1 k2 h2 hc hr
  obtain ⟨e1, he1, hc1, hr1, hd1⟩ := mem_consKeys.mp h1
  obtain ⟨e2, he2, hc2, hr2, hd2⟩ := mem_consKeys.mp h2
  have hdd : e1.date = e2.date := h e1 he1 e2 he2 (by rw [hr1, hr2, hr])
  have hsome : some k1.2.2 = some k2.2.2 := by rw [← hd1, ← hd2, hdd]
  exact Prod.ext hc (Prod.ext hr (Option.some_injective _ hsome))

theorem consAgg_constructorId (s : List FlagRow) (k : Nat × Nat × Int) :
    (consAgg s k).constructorId = k.1 := rfl

theorem consAgg_raceId (s : List FlagRow) (k : Nat × Nat × Int) :
    (consAgg s k).raceId = k.2.1 := rfl

theorem consAgg_date (s : List FlagRow) (k : Nat × Nat × Int) :
    (consAgg s k).date = k.2.2 := rfl

theorem consRaceRows_perm (s : List FlagRow) :
    (consRaceRows s).Perm ((consKeys s).map (consAgg s)) :=
  stableSortBy_perm _ _

theorem consRaceRows_sorted (s : List FlagRow) :
    (consRaceRows s).Pairwise (fun a b => kle (keyC a) (keyC b) = true) :=
  stableSortBy_pairwise (fun a b => kle (keyC a) (keyC b))
    (fun x y => kle_total _ _) (fun x y z hxy hyz => kle_trans hxy hyz) _

/-- Under `DateByRace`, no two distinct race-level rows share
(constructorId, raceId). -/
theorem consRaceRows_cr_distinct {s : List FlagRow} (h : DateByRace s) :
    (consRaceRows s).Pairwise
      (fun a b => ¬(a.constructorId = b.constructorId ∧ a.raceId = b.raceId)) := by
  have hkeys : (consKeys s).Pairwise
      (fun k1 k2 => ¬(k1.1 = k2.1 ∧ k1.2.1 = k2.2.1)) := by
    refine List.Pairwise.imp_of_mem ?_ (consKeys_nodup s)
    intro k1 k2 h1 h2 hne
    rintro ⟨hc, hr⟩
    exact hne (consKeys_key_det h k1 h1 k2 h2 hc hr)
  have hmap : ((consKeys s).map (consAgg s)).Pairwise
      (fun a b => ¬(a.constructorId = b.constructorId ∧ a.raceId = b.raceId)) := by
    rw [List.pairwise_map]
    exact hkeys
  exact ((consRaceRows_perm s).pairwise_iff
    (fun hxy hyx => hxy ⟨hyx.1.symm, hyx.2.symm⟩)).mpr hmap

/-- The property transfers to the expanded constructor table. -/
theorem consTable_cr_distinct {s : List FlagRow} (h : DateByRace s) :
    (consTable s).Pairwise
      (fun a b => ¬(a.constructorId = b.constructorId ∧ a.raceId = b.raceId)) := by
  have hbase := consRaceRows_cr_distinct h
  rw [← consExpand_map [] (consRaceRows s), List.pairwise_map] at hbase
  exact hbase.imp (fun hab => hab)

/-- A filter by one (constructorId, raceId) pair over a table without
duplicate pairs has at most one element. -/
theorem cons_filter_subsingleton {l : List ConsFeat}
    (h : l.Pairwise
      (fun a b => ¬(a.constructorId = b.constructorId ∧ a.raceId = b.raceId)))
    (c r : Nat) :
    ∀ a ∈ l.filter (fun x => x.constructorId == c && x.raceId == r),
    ∀ b ∈ l.filter (fun x => x.constructorId == c && x.raceId == r), a = b := by
  intro a ha b hb
  rcases List.mem_filter.mp ha with ⟨ha1, ha2⟩
  rcases List.mem_filter.mp hb with ⟨hb1, hb2⟩
  simp only [Bool.and_eq_true, beq_iff_eq] at ha2 hb2
  by_contra hne
  have hsym : Symmetric
      (fun (a b : ConsFeat) => ¬(a.constructorId = b.constructorId ∧ a.raceId = b.raceId)) := by
    intro x y hxy ⟨hc, hr⟩; exact hxy ⟨hc.symm, hr.symm⟩
  exact (h.forall hsym ha1 hb1 hne) ⟨by rw [ha2.1, hb2.1], by rw [ha2.2, hb2.2]⟩

/-! ## Concrete example rows (used by witnesses and counterexamples) -/

/-- A raw entry with fixed uninteresting grid/positionOrder/status fields. -/
def mkEntry (drv cns race : Nat) (d : Option Int) (pts : Option ℚ) (yr : Int) : Entry :=
  { driverId := drv, constructorId := cns, raceId := race, date := d,
    grid := some 1, positionOrder := some 1, points := pts, statusId := 1, year := yr }

/-- A driver-level row as it reaches `add_time_aware_aggregates`. -/
def mkFlag (drv cns race : Nat) (d : Option Int) (pts : Option ℚ) : FlagRow :=
  { toEntry := mkEntry drv cns race d pts 2020, grid_clean := some 1,
    position_gain := some 0, is_podium := 1, status_text := some "Finished",
    is_finished := 1, is_dnf := 0, is_dns := 0 }

/-! ## Claim C10 -/

theorem toFlagRow_fields {o : AggRow} {e : FlagRow} (h : o.toFlagRow = e) :
    o.driverId = e.driverId ∧ o.constructorId = e.constructorId ∧
    o.raceId = e.raceId ∧ o.date = e.date ∧
    o.points = e.points ∧ o.positionOrder = e.positionOrder := by
  subst h; exact ⟨rfl, rfl, rfl, rfl, rfl, rfl⟩

/-- C10: `add_time_aware_aggregates` returns a table whose `points` column is
the numeric coercion of the input points with missing values replaced by 0.0
(and whose `positionOrder` is the coercion with missing left missing): every
output row carries the filled points of an input row, and every input row is
represented by at least one output row carrying its filled points. -/
theorem C10_points_overwritten (t : List FlagRow) :
    (∀ o ∈ add_time_aware_aggregates t, ∃ e ∈ t,
        o.driverId = e.driverId ∧ o.constructorId = e.constructorId ∧
        o.raceId = e.raceId ∧ o.date = e.date ∧
        o.points = some (e.points.getD 0) ∧ o.positionOrder = e.positionOrder) ∧
    (∀ e ∈ t, ∃ o ∈ add_time_aware_aggregates t,
        o.driverId = e.driverId ∧ o.constructorId = e.constructorId ∧
        o.raceId = e.raceId ∧ o.date = e.date ∧
        o.points = some (e.points.getD 0) ∧ o.positionOrder = e.positionOrder) := by
  constructor
  · intro o ho
    rw [add_time_aware_aggregates_eq] at ho
    obtain ⟨pre, e', suf, hsplit, hmem⟩ := mem_aggExpand ho
    have he' : e' ∈ sPrep t := by
      rw [hsplit]; exact List.mem_append.mpr (Or.inr (List.mem_cons_self _ _))
    obtain ⟨x, hx, hex⟩ := mem_sPrep he'
    obtain ⟨hb, -, -, -⟩ := aggRowsFor_base hmem
    obtain ⟨h1, h2, h3, h4, h5, h6⟩ := toFlagRow_fields hb
    subst hex
    exact ⟨x, hx, h1, h2, h3, h4, h5, h6⟩
  · intro e he
    have hmem : prepNums e ∈ sPrep t :=
      (sPrep_perm t).mem_iff.mpr (List.mem_map_of_mem prepNums he)
    obtain ⟨pre, suf, hsplit⟩ := List.append_of_mem hmem
    obtain ⟨o, ho⟩ :=
      List.exists_mem_of_ne_nil _ (aggRowsFor_ne_nil (consTable (sPrep t)) pre (prepNums e))
    refine ⟨o, ?_, ?_⟩
    · rw [add_time_aware_aggregates_eq]
      have h2 := aggExpand_mem (consTable (sPrep t)) [] pre suf ho
      rw [← hsplit] at h2
      exact h2
    · obtain ⟨hb, -, -, -⟩ := aggRowsFor_base ho
      obtain ⟨h1, h2, h3, h4, h5, h6⟩ := toFlagRow_fields hb
      exact ⟨h1, h2, h3, h4, h5, h6⟩

/-- Witness for C10 at a concrete 1-row table with a missing `points` cell:
the output row's points column holds `some 0`. -/
theorem C10_witness :
    ∃ o ∈ add_time_aware_aggregates [mkFlag 1 1 1 (some 0) none],
      o.driverId = (mkFlag 1 1 1 (some 0) none).driverId ∧
      o.constructorId = (mkFlag 1 1 1 (some 0) none).constructorId ∧
      o.raceId = (mkFlag 1 1 1 (some 0) none).raceId ∧
      o.date = (mkFlag 1 1 1 (some 0) none).date ∧
      o.points = some ((mkFlag 1 1 1 (some 0) none).points.getD 0) ∧
      o.positionOrder = (mkFlag 1 1 1 (some 0) none).positionOrder :=
  (C10_points_overwritten [mkFlag 1 1 1 (some 0) none]).2
    (mkFlag 1 1 1 (some 0) none) (List.mem_singleton.mpr rfl)

/-! ## Claim C9 -/

/-- C9: if every value of a median-filled column is missing, `final_clean`
without a training-median override computes a missing fill value, and the
column's values remain missing in the returned table (the model is total:
no exception is raised). -/
theorem C9_median_fill_missing (t : List AggRow) :
    ((∀ r ∈ t, r.driver_consistency_past = none) →
      ∀ r ∈ final_clean t none, r.driver_consistency_past = none) ∧
    ((∀ r ∈ t, r.constructor_avg_finish_past = none) →
      ∀ r ∈ final_clean t none, r.constructor_avg_finish_past = none) := by
  constructor
  · intro h r hr
    rw [final_clean] at hr
    simp only [List.mem_map] at hr
    obtain ⟨x, hx, hrx⟩ := hr
    subst hrx
    have hnil : t.filterMap (fun r => r.driver_consistency_past) = [] := by
      rw [List.filterMap_eq_nil_iff]; exact h
    simp only [tmLookup, Option.bind, hnil]
    rw [h x hx]
    rfl
  · intro h r hr
    rw [final_clean] at hr
    simp only [List.mem_map] at hr
    obtain ⟨x, hx, hrx⟩ := hr
    subst hrx
    have hnil : t.filterMap (fun r => r.constructor_avg_finish_past) = [] := by
      rw [List.filterMap_eq_nil_iff]; exact h
    simp only [tmLookup, Option.bind, hnil]
    rw [h x hx]
    rfl

/-- Witness for C9 at a concrete 1-row table whose consistency/avg-finish
features are missing (a first race): both stay missing after `final_clean`. -/
theorem C9_witness :
    (∀ r ∈ final_clean (add_time_aware_aggregates [mkFlag 1 1 1 (some 0) (some 1)]) none,
      r.driver_consistency_past = none) ∧
    (∀ r ∈ final_clean (add_time_aware_aggregates [mkFlag 1 1 1 (some 0) (some 1)]) none,
      r.constructor_avg_finish_past = none) :=
  ⟨(C9_median_fill_missing (add_time_aware_aggregates [mkFlag 1 1 1 (some 0) (some 1)])).1
      (by with_unfolding_all decide),
   (C9_median_fill_missing (add_time_aware_aggregates [mkFlag 1 1 1 (some 0) (some 1)])).2
      (by with_unfolding_all decide)⟩

/-! ## Claim C8 -/

/-- The classification predicate of `add_dnf_dns_flags` on the lowercased
status text. -/
def finText (s : String) : Bool := s == "finished" || s == "classified"

/-- The did-not-start predicate: the text contains "did not start". -/
def dnsText (s : String) : Bool := containsSub "did not start".data s.data

/-- C8: on a table with a `status_text` column, every output row has exactly
one of `is_finished`, `is_dns`, `is_dnf` equal to 1 and the other two 0,
following the case-insensitive rule: text equal to "finished"/"classified" →
finished; text containing "did not start" → DNS; everything else → DNF
(a missing text renders as the string "nan", hence DNF). -/
theorem C8_flags_partition (t : List StatusRow) :
    ∀ r ∈ add_dnf_dns_flags t,
      ((r.is_finished, r.is_dnf, r.is_dns) = (1, 0, 0) ∨
       (r.is_finished, r.is_dnf, r.is_dns) = (0, 1, 0) ∨
       (r.is_finished, r.is_dnf, r.is_dns) = (0, 0, 1)) ∧
      (r.is_finished = 1 ↔ finText (lowerStr (r.status_text.getD "nan"))) ∧
      (r.is_dns = 1 ↔ dnsText (lowerStr (r.status_text.getD "nan"))) ∧
      (r.is_dnf = 1 ↔
        ¬(finText (lowerStr (r.status_text.getD "nan")) ∨
          dnsText (lowerStr (r.status_text.getD "nan")))) := by
  intro r hr
  rw [add_dnf_dns_flags] at hr
  simp only [List.mem_map] at hr
  obtain ⟨x, hx, hrx⟩ := hr
  subst hrx
  rcases hf : (lowerStr (x.status_text.getD "nan") == "finished" ||
      lowerStr (x.status_text.getD "nan") == "classified") with _ | _ <;>
    rcases hd : containsSub "did not start".data
      (lowerStr (x.status_text.getD "nan")).data with _ | _
  · exact ⟨Or.inr (Or.inl (by simp [hf, hd])),
      by simp [finText, hf], by simp [dnsText, hd], by simp [finText, dnsText, hf, hd]⟩
  · exact ⟨Or.inr (Or.inr (by simp [hf, hd])),
      by simp [finText, hf], by simp [dnsText, hd], by simp [finText, dnsText, hf, hd]⟩
  · exact ⟨Or.inl (by simp [hf, hd]),
      by simp [finText, hf], by simp [dnsText, hd], by simp [finText, dnsText, hf, hd]⟩
  · -- impossible: neither exact text contains "did not start"
    exfalso
    rcases Bool.or_eq_true _ _ |>.mp hf with hf1 | hf1 <;>
      rw [eq_of_beq hf1] at hd
    · exact absurd hd (by decide)
    · exact absurd hd (by decide)

/-- A status-stage row with a given status text. -/
def mkStatus (txt : Option String) : StatusRow :=
  { toRaceFeatRow :=
      { toGridRow := { toEntry := mkEntry 1 1 1 (some 0) (some 10) 2020, grid_clean := some 1 }
        position_gain := some 0
        is_podium := 1 }
    status_text := txt }

/-- The flags row produced for the mixed-case text "Did Not Start". -/
def frDNS : FlagRow :=
  { toStatusRow := mkStatus (some "Did Not Start")
    is_finished := 0, is_dnf := 0, is_dns := 1 }

/-- Witness for C8 on the concrete text "Did Not Start": exactly the DNS flag
is set, matching the case-insensitive substring rule. -/
theorem C8_witness :
    ((frDNS.is_finished, frDNS.is_dnf, frDNS.is_dns) = (1, 0, 0) ∨
     (frDNS.is_finished, frDNS.is_dnf, frDNS.is_dns) = (0, 1, 0) ∨
     (frDNS.is_finished, frDNS.is_dnf, frDNS.is_dns) = (0, 0, 1)) ∧
    (frDNS.is_finished = 1 ↔ finText (lowerStr (frDNS.status_text.getD "nan"))) ∧
    (frDNS.is_dns = 1 ↔ dnsText (lowerStr (frDNS.status_text.getD "nan"))) ∧
    (frDNS.is_dnf = 1 ↔
      ¬(finText (lowerStr (frDNS.status_text.getD "nan")) ∨
        dnsText (lowerStr (frDNS.status_text.getD "nan")))) :=
  C8_flags_partition [mkStatus (some "Did Not Start")] frDNS (by decide)

/-! ## Claim C4 -/

/-- The ordering asserted by the claim: date ascending with *missing dates
first* ("sorted as the earliest rows of the table"), ties broken by raceId. -/
def kleSpecNaTFirst (a b : CKey) : Bool :=
  match a.1, b.1 with
  | none, none => a.2 ≤ b.2
  | none, some _ => true
  | some _, none => false
  | some x, some y => x < y || (x == y && a.2 ≤ b.2)

/-- Counterexample to C4 as stated: on a two-row table whose first row has an
unparsable date, `_time_sort` places the missing-date row *last* (pandas
`na_position="last"`), so the output is not ordered by the claimed
missing-dates-first order. -/
theorem C4_counterexample :
    ¬ (time_sort [mkFlag 1 1 1 none (some 1), mkFlag 2 2 2 (some 5) (some 2)]).Pairwise
        (fun a b => kleSpecNaTFirst (keyF a) (keyF b) = true) := by
  decide

/-- C4 (amended: missing dates sort *last*, not first): `_time_sort` returns a
permutation of its input that is sorted by date ascending then raceId
ascending with missing dates placed after all parseable dates, and the sort is
stable: for every (date, raceId) key, the subsequence of rows carrying that
key is unchanged. -/
theorem C4_time_sort (t : List FlagRow) :
    (time_sort t).Perm t ∧
    (time_sort t).Pairwise (fun a b => kle (keyF a) (keyF b) = true) ∧
    (∀ k : CKey, (time_sort t).filter (fun r => keyF r == k) =
      t.filter (fun r => keyF r == k)) := by
  refine ⟨stableSortBy_perm _ t, ?_, ?_⟩
  · exact stableSortBy_pairwise (fun a b => kle (keyF a) (keyF b))
      (fun x y => kle_total _ _) (fun x y z hxy hyz => kle_trans hxy hyz) t
  · intro k
    refine stableSortBy_filter _ _ t ?_
    intro a b ha hb
    have hak : keyF a = k := eq_of_beq ha
    have hbk : keyF b = k := eq_of_beq hb
    have hab : keyF a = keyF b := hak.trans hbk.symm
    show kle (keyF a) (keyF b) = true
    rw [hab]
    have htot := kle_total (keyF b) (keyF b)
    revert htot
    cases kle (keyF b) (keyF b) <;> simp

/-! ## Claim C5 -/

/-- A feature row with year 2000, outside the training range (2018, 2022). -/
def agg2000 : AggRow :=
  { toFlagRow :=
      { toEntry := mkEntry 1 1 1 (some 0) (some 1) 2000, grid_clean := some 1,
        position_gain := some 0, is_podium := 1, status_text := some "Finished",
        is_finished := 1, is_dnf := 0, is_dns := 0 }
    driver_races_past := 0
    driver_avg_points_past := none
    driver_consistency_past := none
    constructor_races_past := some 0
    constructor_strength_past := none
    constructor_avg_finish_past := none }

/-- Counterexample to C5 as stated: on a table with no row in the year range,
`get_train_medians` neither fails (it is total) nor returns an empty result:
it silently returns the two-column dict with missing (`NaN`) medians. -/
theorem C5_counterexample :
    (∀ e ∈ [agg2000], ¬((2018 : Int) ≤ e.year ∧ e.year ≤ 2022)) ∧
    get_train_medians [agg2000] 2018 2022 ≠ [] ∧
    ∀ p ∈ get_train_medians [agg2000] 2018 2022, p.2 = none := by
  refine ⟨by decide, by decide, by decide⟩

/-- C5 (amended): when the year range selects zero rows, `get_train_medians`
does not fail and does not return an empty dict; it returns the dict mapping
both median columns to a missing (`NaN`) median. -/
theorem C5_empty_range (t : List AggRow) (lo hi : Int)
    (h : ∀ e ∈ t, ¬(lo ≤ e.year ∧ e.year ≤ hi)) :
    get_train_medians t lo hi =
      [("driver_consistency_past", none), ("constructor_avg_finish_past", none)] := by
  have hfil : t.filter (fun r => lo ≤ r.year && r.year ≤ hi) = [] := by
    rw [List.filter_eq_nil_iff]
    intro a ha
    simpa using h a ha
  rw [get_train_medians]
  rw [hfil]
  rfl

/-- Witness for C5's amended statement at the concrete out-of-range table. -/
theorem C5_witness :
    get_train_medians [agg2000] 2018 2022 =
      [("driver_consistency_past", none), ("constructor_avg_finish_past", none)] :=
  C5_empty_range [agg2000] 2018 2022 (by decide)

/-! ## Claim C7 -/

/-- A filter by one (constructorId, raceId) pair over a table without duplicate
pairs is empty or a singleton. -/
theorem cons_filter_short {l : List ConsFeat}
    (h : l.Pairwise
      (fun a b => ¬(a.constructorId = b.constructorId ∧ a.raceId = b.raceId)))
    (c r : Nat) :
    l.filter (fun x => x.constructorId == c && x.raceId == r) = [] ∨
    ∃ m, l.filter (fun x => x.constructorId == c && x.raceId == r) = [m] := by
  rcases hm : l.filter (fun x => x.constructorId == c && x.raceId == r)
      with _ | ⟨m1, _ | ⟨m2, ms⟩⟩
  · exact Or.inl hm
  · exact Or.inr ⟨m1, hm⟩
  · exfalso
    have hp := (h.filter (fun x => x.constructorId == c && x.raceId == r))
    rw [hm] at hp
    have hr12 := (List.pairwise_cons.mp hp).1 m2 (List.mem_cons_self _ _)
    have h1 : m1 ∈ l.filter (fun x => x.constructorId == c && x.raceId == r) := by
      rw [hm]; exact List.mem_cons_self _ _
    have h2 : m2 ∈ l.filter (fun x => x.constructorId == c && x.raceId == r) := by
      rw [hm]; exact List.mem_cons.mpr (Or.inr (List.mem_cons_self _ _))
    have hb1 := (List.mem_filter.mp h1).2
    have hb2 := (List.mem_filter.mp h2).2
    simp only [Bool.and_eq_true, beq_iff_eq] at hb1 hb2
    exact hr12 ⟨hb1.1.trans hb2.1.symm, hb1.2.trans hb2.2.symm⟩

/-- Under `DateByRace`, the left join inside `add_time_aware_aggregates` emits
exactly one output row per driver-level row. -/
theorem aggRowsFor_length {s : List FlagRow} (h : DateByRace s)
    (past : List FlagRow) (e : FlagRow) :
    (aggRowsFor (consTable s) past e).length = 1 := by
  rw [aggRowsFor]
  rcases cons_filter_short (consTable_cr_distinct h) e.constructorId e.raceId
      with hm | ⟨m, hm⟩
  · rw [hm]; rfl
  · rw [hm]; rfl

theorem aggExpand_length {s : List FlagRow} (h : DateByRace s)
    (past l : List FlagRow) :
    (aggExpand (consTable s) past l).length = l.length := by
  induction l generalizing past with
  | nil => rfl
  | cons a as ih =>
    rw [aggExpand, List.length_append, aggRowsFor_length h past a, ih (past ++ [a]),
      List.length_cons]
    omega

/-- Under `DateByRace`, the base rows of the aggregate output are exactly the
sorted prepared rows. -/
theorem aggExpand_map_base {s : List FlagRow} (h : DateByRace s)
    (past l : List FlagRow) :
    (aggExpand (consTable s) past l).map (fun o => o.toFlagRow) = l := by
  induction l generalizing past with
  | nil => rfl
  | cons a as ih =>
    rw [aggExpand, List.map_append, ih (past ++ [a])]
    have hbase : (aggRowsFor (consTable s) past a).map (fun o => o.toFlagRow) = [a] := by
      rw [aggRowsFor]
      rcases cons_filter_short (consTable_cr_distinct h) a.constructorId a.raceId
          with hm | ⟨m, hm⟩
      · rw [hm]; rfl
      · rw [hm]; rfl
    rw [hbase]
    rfl

/-- A filter by one statusId over a status table without duplicate ids is
empty or a singleton. -/
theorem status_filter_short {status : List (Nat × String)}
    (h : status.Pairwise (fun a b => a.1 ≠ b.1)) (sid : Nat) :
    status.filter (fun s => s.1 == sid) = [] ∨
    ∃ m, status.filter (fun s => s.1 == sid) = [m] := by
  rcases hm : status.filter (fun s => s.1 == sid) with _ | ⟨m1, _ | ⟨m2, ms⟩⟩
  · exact Or.inl hm
  · exact Or.inr ⟨m1, hm⟩
  · exfalso
    have hp := (h.filter (fun s => s.1 == sid))
    rw [hm] at hp
    have hr12 := (List.pairwise_cons.mp hp).1 m2 (List.mem_cons_self _ _)
    have h1 : m1 ∈ status.filter (fun s => s.1 == sid) := by
      rw [hm]; exact List.mem_cons_self _ _
    have h2 : m2 ∈ status.filter (fun s => s.1 == sid) := by
      rw [hm]; exact List.mem_cons.mpr (Or.inr (List.mem_cons_self _ _))
    have hb1 := (List.mem_filter.mp h1).2
    have hb2 := (List.mem_filter.mp h2).2
    rw [beq_iff_eq] at hb1 hb2
    exact hr12 (hb1.trans hb2.symm)

/-- With unique status ids, `attach_status_text` keeps the rows unchanged
(one output row per input row, in order). -/
theorem attach_status_text_map {status : List (Nat × String)}
    (h : status.Pairwise (fun a b => a.1 ≠ b.1)) (t : List RaceFeatRow) :
    (attach_status_text t status).map (fun r => r.toRaceFeatRow) = t := by
  induction t with
  | nil => rfl
  | cons a as ih =>
    rw [attach_status_text] at *
    rw [List.flatMap_cons, List.map_append, ih]
    rcases status_filter_short h a.statusId with hm | ⟨m, hm⟩
    · rw [hm]; rfl
    · rw [hm]; rfl

/-- Counterexample to C7 as stated: two rows of one race carrying two distinct
date values make the race-level left join in `add_time_aware_aggregates`
duplicate rows (4 output rows from 2 input rows). -/
theorem C7_counterexample :
    (add_time_aware_aggregates
        [mkFlag 1 1 1 (some 0) (some 10), mkFlag 2 1 1 (some 1) (some 20)]).length ≠
      ([mkFlag 1 1 1 (some 0) (some 10), mkFlag 2 1 1 (some 1) (some 20)] :
        List FlagRow).length := by
  with_unfolding_all decide

/-- C7 (amended: provided the status lookup has no duplicate `statusId` and
the date is functionally determined by `raceId`): each stage returns exactly
one output row per input row — the stages only add (or overwrite in place)
columns and neither left join duplicates or drops rows.  For the map stages
the i-th output extends the i-th input; the aggregate stage returns a
permutation of the prepared input rows. -/
theorem C7_row_preservation :
    (∀ t : List Entry, (clean_grid t).length = t.length ∧
      (clean_grid t).map (fun r => r.toEntry) = t) ∧
    (∀ t : List GridRow, (add_race_features t).length = t.length ∧
      (add_race_features t).map (fun r => r.toGridRow) = t) ∧
    (∀ (t : List RaceFeatRow) (status : List (Nat × String)),
      status.Pairwise (fun a b => a.1 ≠ b.1) →
      (attach_status_text t status).length = t.length ∧
      (attach_status_text t status).map (fun r => r.toRaceFeatRow) = t) ∧
    (∀ t : List StatusRow, (add_dnf_dns_flags t).length = t.length ∧
      (add_dnf_dns_flags t).map (fun r => r.toStatusRow) = t) ∧
    (∀ t : List FlagRow, DateByRace t →
      (add_time_aware_aggregates t).length = t.length ∧
      ((add_time_aware_aggregates t).map (fun o => o.toFlagRow)).Perm
        (t.map prepNums)) ∧
    (∀ (t : List AggRow) (tm : Option (List (String × Option ℚ))),
      (final_clean t tm).length = t.length ∧
      (final_clean t tm).map (fun r => r.toFlagRow) = t.map (fun r => r.toFlagRow)) := by
  refine ⟨?_, ?_, ?_, ?_, ?_, ?_⟩
  · intro t
    constructor
    · rw [clean_grid, List.length_map]
    · rw [clean_grid, List.map_map]
      exact List.map_id'' (fun x => rfl) t
  · intro t
    constructor
    · rw [add_race_features, List.length_map]
    · rw [add_race_features, List.map_map]
      exact List.map_id'' (fun x => rfl) t
  · intro t status h
    have hmap := attach_status_text_map h t
    exact ⟨(List.length_map _ _).symm.trans (congrArg List.length hmap), hmap⟩
  · intro t
    constructor
    · rw [add_dnf_dns_flags, List.length_map]
    · rw [add_dnf_dns_flags, List.map_map]
      exact List.map_id'' (fun x => rfl) t
  · intro t h
    have hs : DateByRace (sPrep t) := dateByRace_sPrep h
    constructor
    · rw [add_time_aware_aggregates_eq, aggExpand_length hs]
      rw [sPrep, List.length_map]
      exact (stableSortBy_perm _ t).length_eq
    · rw [add_time_aware_aggregates_eq, aggExpand_map_base hs]
      exact sPrep_perm t
  · intro t tm
    constructor
    · rw [final_clean, List.length_map]
    · rw [final_clean, List.map_map]
      rfl

/-- Witness for C7's amended statement: the two join stages, applied at
concrete inputs satisfying the key-uniqueness hypotheses, preserve the row
count. -/
theorem C7_witness :
    ((attach_status_text [(mkStatus none).toRaceFeatRow]
        [(1, "Finished"), (2, "Collision")]).length =
      [(mkStatus none).toRaceFeatRow].length) ∧
    ((add_time_aware_aggregates
        [mkFlag 1 1 1 (some 0) (some 10), mkFlag 2 1 1 (some 0) (some 20)]).length =
      ([mkFlag 1 1 1 (some 0) (some 10), mkFlag 2 1 1 (some 0) (some 20)] :
        List FlagRow).length) :=
  ⟨(C7_row_preservation.2.2.1 [(mkStatus none).toRaceFeatRow]
      [(1, "Finished"), (2, "Collision")] (by decide)).1,
   (C7_row_preservation.2.2.2.2.1
      [mkFlag 1 1 1 (some 0) (some 10), mkFlag 2 1 1 (some 0) (some 20)]
      (by unfold DateByRace; decide)).1⟩

/-! ## Claim C1 -/

/-- Counterexample to C1 as stated: when one raceId carries two distinct dates,
the race-level groupby keys `(constructorId, raceId, date)` split the race,
and the left join back on `(constructorId, raceId)` matches both groups, so
two output rows with the same raceId and constructorId carry different
`constructor_strength_past` values. -/
theorem C1_counterexample :
    ∃ o1 ∈ add_time_aware_aggregates
        [mkFlag 1 1 1 (some 0) (some 10), mkFlag 2 1 1 (some 1) (some 20)],
    ∃ o2 ∈ add_time_aware_aggregates
        [mkFlag 1 1 1 (some 0) (some 10), mkFlag 2 1 1 (some 1) (some 20)],
      o1.raceId = o2.raceId ∧ o1.constructorId = o2.constructorId ∧
      o1.constructor_strength_past ≠ o2.constructor_strength_past := by
  with_unfolding_all decide

/-- C1 (amended: provided the date is functionally determined by raceId):
any two output rows of `add_time_aware_aggregates` with the same raceId and
the same constructorId carry identical `constructor_races_past`,
`constructor_strength_past` and `constructor_avg_finish_past` values
(equal including both missing). -/
theorem C1_teammates_equal (t : List FlagRow) (h : DateByRace t) :
    ∀ o1 ∈ add_time_aware_aggregates t, ∀ o2 ∈ add_time_aware_aggregates t,
      o1.raceId = o2.raceId → o1.constructorId = o2.constructorId →
      o1.constructor_races_past = o2.constructor_races_past ∧
      o1.constructor_strength_past = o2.constructor_strength_past ∧
      o1.constructor_avg_finish_past = o2.constructor_avg_finish_past := by
  intro o1 ho1 o2 ho2 hrace hcons
  have hs : DateByRace (sPrep t) := dateByRace_sPrep h
  rw [add_time_aware_aggregates_eq] at ho1 ho2
  obtain ⟨pre1, e1, suf1, hsp1, hm1⟩ := mem_aggExpand ho1
  obtain ⟨pre2, e2, suf2, hsp2, hm2⟩ := mem_aggExpand ho2
  obtain ⟨hb1, -, -, -⟩ := aggRowsFor_base hm1
  obtain ⟨hb2, -, -, -⟩ := aggRowsFor_base hm2
  have hc1 : e1.constructorId = o1.constructorId := by rw [← hb1]
  have hr1 : e1.raceId = o1.raceId := by rw [← hb1]
  have hc2 : e2.constructorId = o2.constructorId := by rw [← hb2]
  have hr2 : e2.raceId = o2.raceId := by rw [← hb2]
  have hpred : (fun c : ConsFeat => c.constructorId == e1.constructorId &&
      c.raceId == e1.raceId) = (fun c : ConsFeat => c.constructorId == e2.constructorId &&
      c.raceId == e2.raceId) := by
    funext c
    rw [hc1, hr1, hcons, hrace, ← hc2, ← hr2]
  have hshort := cons_filter_short (consTable_cr_distinct hs) e1.constructorId e1.raceId
  rcases aggRowsFor_cons hm1 with ⟨hnil1, hv1a, hv1b, hv1c⟩ | ⟨m1, hmem1, hv1a, hv1b, hv1c⟩ <;>
    rcases aggRowsFor_cons hm2 with ⟨hnil2, hv2a, hv2b, hv2c⟩ | ⟨m2, hmem2, hv2a, hv2b, hv2c⟩
  · rw [hv1a, hv1b, hv1c, hv2a, hv2b, hv2c]
    exact ⟨rfl, rfl, rfl⟩
  · exfalso
    rw [← hpred] at hmem2
    rw [hnil1] at hmem2
    exact List.not_mem_nil m2 hmem2
  · exfalso
    rw [← hpred] at hnil2
    rw [hnil2] at hmem1
    exact List.not_mem_nil m1 hmem1
  · rw [← hpred] at hmem2
    rcases hshort with hnil | ⟨m, hm⟩
    · exfalso; rw [hnil] at hmem1; exact List.not_mem_nil m1 hmem1
    · rw [hm] at hmem1 hmem2
      have h1 : m1 = m := List.mem_singleton.mp hmem1
      have h2 : m2 = m := List.mem_singleton.mp hmem2
      subst h1; subst h2
      rw [hv1a, hv1b, hv1c, hv2a, hv2b, hv2c]
      exact ⟨rfl, rfl, rfl⟩

/-- Two teammates in race 2 after a shared race 1: used for the C1 witness. -/
def tblTeam : List FlagRow :=
  [mkFlag 1 1 1 (some 0) (some 25), mkFlag 2 1 1 (some 0) (some 18),
   mkFlag 1 1 2 (some 7) (some 5), mkFlag 2 1 2 (some 7) (some 3)]

set_option maxRecDepth 10000 in
/-- Witness for C1's amended statement: the two teammates' rows of race 2
carry equal constructor history. -/
theorem C1_witness :
    ((add_time_aware_aggregates tblTeam).getD 2 agg2000).constructor_races_past =
      ((add_time_aware_aggregates tblTeam).getD 3 agg2000).constructor_races_past ∧
    ((add_time_aware_aggregates tblTeam).getD 2 agg2000).constructor_strength_past =
      ((add_time_aware_aggregates tblTeam).getD 3 agg2000).constructor_strength_past ∧
    ((add_time_aware_aggregates tblTeam).getD 2 agg2000).constructor_avg_finish_past =
      ((add_time_aware_aggregates tblTeam).getD 3 agg2000).constructor_avg_finish_past :=
  C1_teammates_equal tblTeam (by unfold DateByRace; decide)
    ((add_time_aware_aggregates tblTeam).getD 2 agg2000) (by with_unfolding_all decide)
    ((add_time_aware_aggregates tblTeam).getD 3 agg2000) (by with_unfolding_all decide)
    (by with_unfolding_all decide) (by with_unfolding_all decide)

/-! ## Claim C2 -/

/-- Hypothesis for C2/C6: no two distinct rows agree on driverId, raceId and
date simultaneously (implied by the spec's "one row per (driver, race)"
assumption together with `DateByRace`). -/
def NoDupDriverKey (t : List FlagRow) : Prop :=
  t.Pairwise (fun a b => ¬(a.driverId = b.driverId ∧ a.raceId = b.raceId ∧ a.date = b.date))

/-- The distinctness hypothesis transfers to the sorted prepared table, in the
form needed by `filter_sorted_split`. -/
theorem noDupDriverKey_sPrep {t : List FlagRow} (h : NoDupDriverKey t) :
    (sPrep t).Pairwise (fun a b => a.driverId = b.driverId → keyF a ≠ keyF b) := by
  have hsym : Symmetric (fun a b : FlagRow => a.driverId = b.driverId → keyF a ≠ keyF b) := by
    intro x y hxy hd hk
    exact hxy hd.symm hk.symm
  have hmap : (t.map prepNums).Pairwise
      (fun a b => a.driverId = b.driverId → keyF a ≠ keyF b) := by
    rw [List.pairwise_map]
    refine h.imp ?_
    intro a b hab hd hk
    refine hab ⟨hd, ?_, ?_⟩
    · exact congrArg Prod.snd hk
    · exact congrArg Prod.fst hk
  exact ((sPrep_perm t).pairwise_iff
    (fun hxy hd hk => hxy hd.symm hk.symm)).mpr hmap

/-- Counterexample to C2 as stated: with two identical rows (same driver,
raceId and date), the stable sort keeps both, and the second one's expanding
mean includes the first — a row that is *not* strictly earlier by
(date, raceId). -/
theorem C2_counterexample :
    ∃ o ∈ add_time_aware_aggregates
        [mkFlag 1 1 1 (some 0) (some 10), mkFlag 1 1 1 (some 0) (some 10)],
      o.driver_avg_points_past ≠
        meanO ((([mkFlag 1 1 1 (some 0) (some 10), mkFlag 1 1 1 (some 0) (some 10)] :
            List FlagRow).filter (fun x => x.driverId == o.driverId &&
            klt (keyF x) (o.date, o.raceId))).map (fun x => x.points.getD 0)) := by
  with_unfolding_all decide

/-- C2 (amended: provided no two distinct rows share driverId, raceId and
date): every output row's `driver_avg_points_past` equals the mean of the
filled points over exactly the input entries with the same driverId strictly
earlier by (date ascending, raceId ascending, missing dates last); being a
function of that set of entries alone, it is unaffected by permuting or
mutating entries at or after the row's position. -/
theorem C2_driver_avg (t : List FlagRow) (h : NoDupDriverKey t) :
    ∀ o ∈ add_time_aware_aggregates t,
      o.driver_avg_points_past =
        meanO ((t.filter (fun x => x.driverId == o.driverId &&
            klt (keyF x) (o.date, o.raceId))).map (fun x => x.points.getD 0)) := by
  intro o ho
  rw [add_time_aware_aggregates_eq] at ho
  obtain ⟨pre, e, suf, hsplit, hm⟩ := mem_aggExpand ho
  rw [List.nil_append] at hm
  obtain ⟨hb, -, hav, -⟩ := aggRowsFor_base hm
  have hsorted := sPrep_sorted t
  have hdist := noDupDriverKey_sPrep h
  rw [hsplit] at hsorted hdist
  have hsps := filter_sorted_split keyF (fun r => r.driverId) pre suf e hsorted hdist
  -- the driver features are computed over the prefix filter
  rw [hav]
  have hkey : (o.date, o.raceId) = keyF e := by rw [← hb]; rfl
  -- rewrite the claim-side filter over t into the prefix filter over sPrep t
  have hperm1 : ((sPrep t).filter (fun x => x.driverId == e.driverId &&
      klt (keyF x) (keyF e))).Perm ((t.map prepNums).filter
      (fun x => x.driverId == e.driverId && klt (keyF x) (keyF e))) :=
    (sPrep_perm t).filter _
  have hfm : (t.map prepNums).filter
      (fun x => x.driverId == e.driverId && klt (keyF x) (keyF e)) =
      (t.filter (fun x => x.driverId == e.driverId && klt (keyF x) (keyF e))).map
        prepNums := by
    rw [List.filter_map]
    rfl
  have hchain : ((pre.filter (fun x => x.driverId == e.driverId)).map
      (fun x => x.points.getD 0)).Perm
      ((t.filter (fun x => x.driverId == e.driverId && klt (keyF x) (keyF e))).map
        (fun x => x.points.getD 0)) := by
    have h1 : (pre.filter (fun x => x.driverId == e.driverId)).map
        (fun x => x.points.getD 0) =
        (((sPrep t).filter (fun x => x.driverId == e.driverId &&
          klt (keyF x) (keyF e))).map (fun x => x.points.getD 0)) := by
      rw [hsplit, hsps]
    rw [h1]
    have h2 := hperm1.map (fun x => x.points.getD 0)
    rw [hfm, List.map_map] at h2
    exact h2
  rw [meanO_perm hchain, hkey]
  have hdrv : o.driverId = e.driverId := by rw [← hb]
  rw [hdrv]

/-- The spec's three-race scenario table (driver 1 scores 25, 18, 15). -/
def tblThree : List FlagRow :=
  [mkFlag 1 1 1 (some 0) (some 25), mkFlag 1 1 2 (some 1) (some 18),
   mkFlag 1 1 3 (some 2) (some 15)]

set_option maxRecDepth 10000 in
/-- Witness for C2's amended statement at the third row of the spec scenario:
its past average equals the mean over the two strictly earlier entries. -/
theorem C2_witness :
    ((add_time_aware_aggregates tblThree).getD 2 agg2000).driver_avg_points_past =
      meanO ((tblThree.filter (fun x =>
        x.driverId == ((add_time_aware_aggregates tblThree).getD 2 agg2000).driverId &&
        klt (keyF x) (((add_time_aware_aggregates tblThree).getD 2 agg2000).date,
          ((add_time_aware_aggregates tblThree).getD 2 agg2000).raceId))).map
        (fun x => x.points.getD 0)) :=
  C2_driver_avg tblThree (by unfold NoDupDriverKey; decide)
    ((add_time_aware_aggregates tblThree).getD 2 agg2000) (by with_unfolding_all decide)

/-! ## Claim C6 -/

/-- A driver's chronologically first entry has no driver history. -/
theorem agg_first_driver {t : List FlagRow} (hkey : NoDupDriverKey t) {o : AggRow}
    (ho : o ∈ add_time_aware_aggregates t)
    (hfirst : ∀ e ∈ t, e.driverId = o.driverId →
      kle (o.date, o.raceId) (keyF e)) :
    o.driver_races_past = 0 ∧ o.driver_avg_points_past = none := by
  rw [add_time_aware_aggregates_eq] at ho
  obtain ⟨pre, e, suf, hsplit, hm⟩ := mem_aggExpand ho
  rw [List.nil_append] at hm
  obtain ⟨hb, hrp, hav, -⟩ := aggRowsFor_base hm
  have hsorted := sPrep_sorted t
  have hdist := noDupDriverKey_sPrep hkey
  rw [hsplit] at hsorted hdist
  obtain ⟨-, -, hs3⟩ := List.pairwise_append.mp hsorted
  obtain ⟨-, -, hd3⟩ := List.pairwise_append.mp hdist
  have hfe : (o.date, o.raceId) = keyF e := by rw [← hb]; rfl
  have hde : o.driverId = e.driverId := by rw [← hb]
  have hnil : pre.filter (fun x => x.driverId == e.driverId) = [] := by
    rw [List.filter_eq_nil_iff]
    intro x hx hpx
    rw [beq_iff_eq] at hpx
    have hxs : x ∈ sPrep t := by
      rw [hsplit]; exact List.mem_append.mpr (Or.inl hx)
    obtain ⟨y, hy, hxy⟩ := mem_sPrep hxs
    have hydrv : y.driverId = o.driverId := by
      rw [hde, ← hpx, hxy]; rfl
    have h1 : kle (keyF e) (keyF x) := by
      have := hfirst y hy hydrv
      rw [hfe] at this
      have hky : keyF y = keyF x := by rw [hxy]; rfl
      rw [hky] at this
      exact this
    have h2 : kle (keyF x) (keyF e) := hs3 x hx e (List.mem_cons_self e suf)
    have hke : keyF x = keyF e := kle_antisymm h2 h1
    exact hd3 x hx e (List.mem_cons_self e suf) hpx hke
  rw [hnil] at hrp hav
  exact ⟨by rw [hrp]; rfl, by rw [hav]; rfl⟩

/-- A constructor's chronologically first race has no constructor-strength
history (under `DateByRace`). -/
theorem agg_first_cons {t : List FlagRow} (hdr : DateByRace t) {o : AggRow}
    (ho : o ∈ add_time_aware_aggregates t)
    (hfirst : ∀ e ∈ t, e.constructorId = o.constructorId →
      kle (o.date, o.raceId) (keyF e)) :
    o.constructor_strength_past = none := by
  have hs : DateByRace (sPrep t) := dateByRace_sPrep hdr
  rw [add_time_aware_aggregates_eq] at ho
  obtain ⟨pre, e, suf, hsplit, hm⟩ := mem_aggExpand ho
  rw [List.nil_append] at hm
  obtain ⟨hb, -, -, -⟩ := aggRowsFor_base hm
  have hfe : (o.date, o.raceId) = keyF e := by rw [← hb]; rfl
  have hce : o.constructorId = e.constructorId := by rw [← hb]
  have hes : e ∈ sPrep t := by
    rw [hsplit]; exact List.mem_append.mpr (Or.inr (List.mem_cons_self e suf))
  rcases aggRowsFor_cons hm with ⟨-, -, hv, -⟩ | ⟨m, hmem, -, hv, -⟩
  · exact hv
  · rw [hv]
    have hmc := List.mem_filter.mp hmem
    obtain ⟨hmtbl, hmpred⟩ := hmc
    simp only [Bool.and_eq_true, beq_iff_eq] at hmpred
    obtain ⟨pre2, c, suf2, hsplit2, hmeq⟩ := mem_consExpand hmtbl
    have hcc : c.constructorId = e.constructorId := by
      rw [← hmpred.1, hmeq]
    have hcr : c.raceId = e.raceId := by
      rw [← hmpred.2, hmeq]
    -- the matched group's key equals e's key
    have hcrr : c ∈ consRaceRows (sPrep t) := by
      rw [hsplit2]
      exact List.mem_append.mpr (Or.inr (List.mem_cons_self c suf2))
    obtain ⟨kc, hkc, hkceq⟩ := List.mem_map.mp ((consRaceRows_perm _).mem_iff.mp hcrr)
    obtain ⟨ec, hec, hec1, hec2, hec3⟩ := mem_consKeys.mp hkc
    have hecr : ec.raceId = e.raceId := by
      rw [hec2, ← consAgg_raceId (sPrep t) kc, hkceq, hcr]
    have hecd : ec.date = e.date := hs ec hec e hes hecr
    have hkey : keyF e = keyC c := by
      rw [keyF, keyC, ← hecd, hec3]
      rw [← consAgg_date (sPrep t) kc, hkceq, ← hcr]
    -- every earlier same-constructor group would contradict minimality
    have hsorted2 := consRaceRows_sorted (sPrep t)
    have hdist2 := consRaceRows_cr_distinct hs
    rw [hsplit2] at hsorted2 hdist2
    obtain ⟨-, -, hs3⟩ := List.pairwise_append.mp hsorted2
    obtain ⟨-, -, hd3⟩ := List.pairwise_append.mp hdist2
    have hnil : pre2.filter (fun x => x.constructorId == c.constructorId) = [] := by
      rw [List.filter_eq_nil_iff]
      intro x hx hpx
      rw [beq_iff_eq] at hpx
      have hxrr : x ∈ consRaceRows (sPrep t) := by
        rw [hsplit2]; exact List.mem_append.mpr (Or.inl hx)
      obtain ⟨kx, hkx, hkxeq⟩ := List.mem_map.mp ((consRaceRows_perm _).mem_iff.mp hxrr)
      obtain ⟨ex, hexs, hex1, hex2, hex3⟩ := mem_consKeys.mp hkx
      obtain ⟨y, hy, hxy⟩ := mem_sPrep hexs
      have hycons : y.constructorId = o.constructorId := by
        have hxcid : ex.constructorId = x.constructorId := by
          rw [hex1, ← hkxeq]
          rfl
        have hycid : y.constructorId = ex.constructorId := by
          rw [hxy]
          rfl
        rw [hycid, hxcid, hpx, hcc, ← hce]
      have hky : keyF y = keyC x := by
        rw [keyF, keyC]
        have hyd : y.date = ex.date := by rw [hxy]; rfl
        have hyr : y.raceId = ex.raceId := by rw [hxy]; rfl
        rw [hyd, hyr, hex3, hex2]
        rw [← consAgg_date (sPrep t) kx, ← consAgg_raceId (sPrep t) kx, hkxeq]
      have h1 : kle (keyC c) (keyC x) := by
        have := hfirst y hy hycons
        rw [hfe, hkey, hky] at this
        exact this
      have h2 : kle (keyC x) (keyC c) := hs3 x hx c (List.mem_cons_self c suf2)
      have hke : keyC x = keyC c := kle_antisymm h2 h1
      have hxr : x.raceId = c.raceId := congrArg Prod.snd hke
      exact hd3 x hx c (List.mem_cons_self c suf2) ⟨hpx, hxr⟩
    rw [hmeq]
    simp only [List.nil_append]
    rw [hnil]
    rfl

/-- Pointwise effect of `final_clean`'s zero fill at a position. -/
theorem final_clean_getD (T : List AggRow) (tm : Option (List (String × Option ℚ)))
    (i : Nat) (hi : i < T.length) :
    ((final_clean T tm).getD i agg2000).driver_avg_points_past =
      some ((T.getD i agg2000).driver_avg_points_past.getD 0) ∧
    ((final_clean T tm).getD i agg2000).constructor_strength_past =
      some ((T.getD i agg2000).constructor_strength_past.getD 0) := by
  rw [List.getD_eq_getElem?_getD, List.getD_eq_getElem?_getD]
  rw [final_clean, List.getElem?_map, List.getElem?_eq_getElem hi]
  exact ⟨rfl, rfl⟩

/-- The table used for the C6 counterexample: constructor 1's first entry is
(race 10, date 0), but race 10 also occurs at date 5, and that later group has
a prior race (race 7, date 3). -/
def tblSplitRace : List FlagRow :=
  [mkFlag 1 1 10 (some 0) (some 1), mkFlag 2 1 10 (some 5) (some 2),
   mkFlag 3 1 7 (some 3) (some 4)]

/-- Counterexample to C6 as stated: an output row that is its constructor's
chronologically first entry nevertheless carries a non-missing
`constructor_strength_past`, because its raceId matches a second, later
(constructorId, raceId, date) group whose expanding mean has prior races. -/
theorem C6_counterexample :
    ∃ o ∈ add_time_aware_aggregates tblSplitRace,
      (∀ e ∈ tblSplitRace, e.constructorId = o.constructorId →
        kle (o.date, o.raceId) (keyF e)) ∧
      o.constructor_strength_past ≠ none := by
  with_unfolding_all decide

/-- C6 (amended: provided the date is functionally determined by raceId and no
two rows share driverId, raceId and date): a driver's first chronological
entry has `driver_races_past = 0` and `driver_avg_points_past` missing in the
aggregate output and exactly 0.0 after `final_clean` with no training-median
override; a constructor's first race likewise has `constructor_strength_past`
missing, then exactly 0.0. -/
theorem C6_first_event (t : List FlagRow) (hdr : DateByRace t)
    (hkey : NoDupDriverKey t) :
    ∀ i, i < (add_time_aware_aggregates t).length →
      ((∀ e ∈ t, e.driverId = ((add_time_aware_aggregates t).getD i agg2000).driverId →
          kle (((add_time_aware_aggregates t).getD i agg2000).date,
            ((add_time_aware_aggregates t).getD i agg2000).raceId) (keyF e)) →
        ((add_time_aware_aggregates t).getD i agg2000).driver_races_past = 0 ∧
        ((add_time_aware_aggregates t).getD i agg2000).driver_avg_points_past = none ∧
        ((final_clean (add_time_aware_aggregates t) none).getD i agg2000).driver_avg_points_past
          = some 0) ∧
      ((∀ e ∈ t, e.constructorId = ((add_time_aware_aggregates t).getD i agg2000).constructorId →
          kle (((add_time_aware_aggregates t).getD i agg2000).date,
            ((add_time_aware_aggregates t).getD i agg2000).raceId) (keyF e)) →
        ((add_time_aware_aggregates t).getD i agg2000).constructor_strength_past = none ∧
        ((final_clean (add_time_aware_aggregates t) none).getD i agg2000).constructor_strength_past
          = some 0) := by
  intro i hi
  have hmem : (add_time_aware_aggregates t).getD i agg2000 ∈ add_time_aware_aggregates t := by
    rw [List.getD_eq_getElem _ _ hi]
    exact List.getElem_mem hi
  obtain ⟨hfd, hfs⟩ := final_clean_getD (add_time_aware_aggregates t) none i hi
  constructor
  · intro hfirst
    obtain ⟨h1, h2⟩ := agg_first_driver hkey hmem hfirst
    refine ⟨h1, h2, ?_⟩
    rw [hfd, h2]
    rfl
  · intro hfirst
    have h1 := agg_first_cons hdr hmem hfirst
    refine ⟨h1, ?_⟩
    rw [hfs, h1]
    rfl

set_option maxRecDepth 10000 in
/-- Witness for C6's amended statement at the first row of the three-race
scenario table. -/
theorem C6_witness :
    (((add_time_aware_aggregates tblThree).getD 0 agg2000).driver_races_past = 0 ∧
     ((add_time_aware_aggregates tblThree).getD 0 agg2000).driver_avg_points_past = none ∧
     ((final_clean (add_time_aware_aggregates tblThree) none).getD 0
        agg2000).driver_avg_points_past = some 0) ∧
    (((add_time_aware_aggregates tblThree).getD 0 agg2000).constructor_strength_past = none ∧
     ((final_clean (add_time_aware_aggregates tblThree) none).getD 0
        agg2000).constructor_strength_past = some 0) :=
  ⟨(C6_first_event tblThree (by unfold DateByRace; decide) (by unfold NoDupDriverKey; decide)
      0 (by with_unfolding_all decide)).1 (by with_unfolding_all decide),
   (C6_first_event tblThree (by unfold DateByRace; decide) (by unfold NoDupDriverKey; decide)
      0 (by with_unfolding_all decide)).2 (by with_unfolding_all decide)⟩

/-! ## Claim C3

Specification-side definitions, written from the claim's words (constructor
history is a mean over the constructor's *races*, one collapsed value per
race, each race contributing the *sum* of its teammates' points). -/

/-- The races of constructor `c` occurring in table `t`: one (date, raceId)
key per distinct combination (rows with unparsable dates have no race key). -/
def specConsRaces (t : List FlagRow) (c : Nat) : List (Int × Nat) :=
  ((t.filter (fun e => e.constructorId == c)).filterMap
    (fun e => e.date.map (fun dd => (dd, e.raceId)))).dedup

/-- The summed team points of constructor `c` in the race keyed `p`
(missing points as 0.0). -/
def specTeamPoints (t : List FlagRow) (c : Nat) (p : Int × Nat) : ℚ :=
  ((t.filter (fun e => e.constructorId == c && e.raceId == p.2 &&
      e.date == some p.1)).map (fun e => e.points.getD 0)).sum

/-- The claim's value of `constructor_strength_past` for an entry of
constructor `c` in the race dated `d` with id `r`: the mean of the per-race
summed team points over the constructor's races strictly earlier than
(d, r). -/
def specStrengthPast (t : List FlagRow) (c : Nat) (d : Int) (r : Nat) : Option ℚ :=
  meanO (((specConsRaces t c).filter
    (fun p => klt (some p.1, p.2) (some d, r))).map (specTeamPoints t c))

theorem mem_specConsRaces {t : List FlagRow} {c : Nat} {p : Int × Nat} :
    p ∈ specConsRaces t c ↔
      ∃ y ∈ t, y.constructorId = c ∧ y.raceId = p.2 ∧ y.date = some p.1 := by
  rw [specConsRaces, List.mem_dedup, List.mem_filterMap]
  constructor
  · rintro ⟨e, he, hk⟩
    rcases hd : e.date with _ | dd
    · rw [hd] at hk; simp [Option.map] at hk
    · rw [hd] at hk
      simp only [Option.map] at hk
      rw [Option.some_inj] at hk
      have hef := List.mem_filter.mp he
      refine ⟨e, hef.1, by simpa using hef.2, by rw [← hk], by rw [hd, ← hk]⟩
  · rintro ⟨y, hy, h1, h2, h3⟩
    refine ⟨y, List.mem_filter.mpr ⟨hy, by simp [h1]⟩, ?_⟩
    rw [h3]
    simp only [Option.map]
    rw [Option.some_inj, h2]

/-- `consKeys` of the prepared table, phrased over the raw input rows. -/
theorem mem_consKeys_sPrep {t : List FlagRow} {k : Nat × Nat × Int} :
    k ∈ consKeys (sPrep t) ↔
      ∃ y ∈ t, y.constructorId = k.1 ∧ y.raceId = k.2.1 ∧ y.date = some k.2.2 := by
  rw [mem_consKeys]
  constructor
  · rintro ⟨e, he, h1, h2, h3⟩
    obtain ⟨y, hy, hey⟩ := mem_sPrep he
    subst hey
    exact ⟨y, hy, h1, h2, h3⟩
  · rintro ⟨y, hy, h1, h2, h3⟩
    exact ⟨prepNums y, (sPrep_perm t).mem_iff.mpr (List.mem_map_of_mem _ hy),
      h1, h2, h3⟩

/-- The race-level sum computed by the groupby equals the claim's per-race
summed team points. -/
theorem consAgg_points_spec (t : List FlagRow) (k : Nat × Nat × Int) :
    (consAgg (sPrep t) k).constructor_points = specTeamPoints t k.1 (k.2.2, k.2.1) := by
  show (((sPrep t).filter (fun e => e.constructorId == k.1 && e.raceId == k.2.1 &&
      e.date == some k.2.2)).map (fun e => e.points.getD 0)).sum =
    ((t.filter (fun e => e.constructorId == k.1 && e.raceId == k.2.1 &&
      e.date == some k.2.2)).map (fun e => e.points.getD 0)).sum
  have hperm : (((sPrep t).filter (fun e => e.constructorId == k.1 &&
      e.raceId == k.2.1 && e.date == some k.2.2)).map (fun e => e.points.getD 0)).Perm
      ((t.filter (fun e => e.constructorId == k.1 && e.raceId == k.2.1 &&
        e.date == some k.2.2)).map (fun e => e.points.getD 0)) := by
    have h1 := ((sPrep_perm t).filter (fun e => e.constructorId == k.1 &&
      e.raceId == k.2.1 && e.date == some k.2.2)).map (fun e => e.points.getD 0)
    rw [List.filter_map, List.map_map] at h1
    exact h1
  exact hperm.sum_eq

/-- The strictly-earlier group keys of constructor `c`, projected to
(date, raceId), are exactly the claim's strictly-earlier race keys. -/
theorem specKeys_perm (t : List FlagRow) (c : Nat) (d : Int) (r : Nat) :
    (((consKeys (sPrep t)).filter
        (fun k => k.1 == c && klt (some k.2.2, k.2.1) (some d, r))).map
      (fun k => (k.2.2, k.2.1))).Perm
    ((specConsRaces t c).filter (fun p => klt (some p.1, p.2) (some d, r))) := by
  have hnd1 : (((consKeys (sPrep t)).filter
      (fun k => k.1 == c && klt (some k.2.2, k.2.1) (some d, r))).map
        (fun k => (k.2.2, k.2.1))).Nodup := by
    refine List.Nodup.map_on ?_ ((consKeys_nodup (sPrep t)).filter _)
    intro x hx y hy hxy
    have hx1 : x.1 = c := by
      have := (List.mem_filter.mp hx).2
      simp only [Bool.and_eq_true, beq_iff_eq] at this
      exact this.1
    have hy1 : y.1 = c := by
      have := (List.mem_filter.mp hy).2
      simp only [Bool.and_eq_true, beq_iff_eq] at this
      exact this.1
    have h22 : x.2.2 = y.2.2 := congrArg Prod.fst hxy
    have h21 : x.2.1 = y.2.1 := congrArg Prod.snd hxy
    exact Prod.ext (hx1.trans hy1.symm) (Prod.ext h21 h22)
  have hnd2 : ((specConsRaces t c).filter
      (fun p => klt (some p.1, p.2) (some d, r))).Nodup :=
    (List.nodup_dedup _).filter _
  refine (List.perm_ext_iff_of_nodup hnd1 hnd2).mpr ?_
  intro p
  rw [List.mem_map, List.mem_filter, mem_specConsRaces]
  constructor
  · rintro ⟨k, hk, hkp⟩
    have hkf := List.mem_filter.mp hk
    have hkm := mem_consKeys_sPrep.mp hkf.1
    have hpred := hkf.2
    simp only [Bool.and_eq_true, beq_iff_eq] at hpred
    obtain ⟨y, hy, h1, h2, h3⟩ := hkm
    have hp1 : k.2.2 = p.1 := congrArg Prod.fst hkp
    have hp2 : k.2.1 = p.2 := congrArg Prod.snd hkp
    constructor
    · exact ⟨y, hy, h1.trans hpred.1, h2.trans hp2, by rw [h3, hp1]⟩
    · have := hpred.2
      rw [hp1, hp2] at this
      exact this
  · rintro ⟨⟨y, hy, h1, h2, h3⟩, hlt⟩
    refine ⟨(c, p.2, p.1), ?_, rfl⟩
    rw [List.mem_filter]
    constructor
    · exact mem_consKeys_sPrep.mpr ⟨y, hy, h1, h2, h3⟩
    · simp only [Bool.and_eq_true, beq_iff_eq]
      exact ⟨trivial, hlt⟩

/-- C3 (amended: provided the date is functionally determined by raceId, for
an entry with a parseable date): `constructor_strength_past` equals the mean,
over the constructor's races strictly earlier than the entry's race in
chronological order, of the per-race *sum* of all teammates' points — one
collapsed value per race, never a single driver's individual points. -/
theorem C3_constructor_strength (t : List FlagRow) (hdr : DateByRace t) :
    ∀ o ∈ add_time_aware_aggregates t, ∀ d : Int, o.date = some d →
      o.constructor_strength_past = specStrengthPast t o.constructorId d o.raceId := by
  intro o ho d hod
  have hs : DateByRace (sPrep t) := dateByRace_sPrep hdr
  rw [add_time_aware_aggregates_eq] at ho
  obtain ⟨pre, e, suf, hsplit, hm⟩ := mem_aggExpand ho
  rw [List.nil_append] at hm
  obtain ⟨hb, -, -, -⟩ := aggRowsFor_base hm
  have hce : o.constructorId = e.constructorId := by rw [← hb]
  have hre : o.raceId = e.raceId := by rw [← hb]
  have hde : e.date = some d := by rw [← hb]; exact hod
  have hes : e ∈ sPrep t := by
    rw [hsplit]; exact List.mem_append.mpr (Or.inr (List.mem_cons_self e suf))
  -- e's race has a group row, so the join's match list is nonempty
  have hkmem : (e.constructorId, e.raceId, d) ∈ consKeys (sPrep t) :=
    mem_consKeys.mpr ⟨e, hes, rfl, rfl, hde⟩
  have hgrow : consAgg (sPrep t) (e.constructorId, e.raceId, d) ∈ consRaceRows (sPrep t) :=
    (consRaceRows_perm _).mem_iff.mpr (List.mem_map_of_mem _ hkmem)
  obtain ⟨preg, sufg, hsplitg⟩ := List.append_of_mem hgrow
  have hfmem : ∃ f ∈ consTable (sPrep t), f.toConsRace =
      consAgg (sPrep t) (e.constructorId, e.raceId, d) := by
    have h0 := @consExpand_mem [] preg sufg
      (consAgg (sPrep t) (e.constructorId, e.raceId, d))
    rw [← hsplitg] at h0
    exact ⟨_, h0, rfl⟩
  obtain ⟨f, hftbl, hfbase⟩ := hfmem
  have hffil : f ∈ (consTable (sPrep t)).filter
      (fun cR => cR.constructorId == e.constructorId && cR.raceId == e.raceId) := by
    rw [List.mem_filter]
    refine ⟨hftbl, ?_⟩
    simp only [Bool.and_eq_true, beq_iff_eq]
    constructor
    · show f.toConsRace.constructorId = e.constructorId
      rw [hfbase]
      rfl
    · show f.toConsRace.raceId = e.raceId
      rw [hfbase]
      rfl
  rcases aggRowsFor_cons hm with ⟨hnil, -, -, -⟩ | ⟨m, hmem, -, hv, -⟩
  · exfalso; rw [hnil] at hffil; exact List.not_mem_nil f hffil
  · rw [hv]
    have hmc := List.mem_filter.mp hmem
    obtain ⟨hmtbl, hmpred⟩ := hmc
    simp only [Bool.and_eq_true, beq_iff_eq] at hmpred
    obtain ⟨pre2, c, suf2, hsplit2, hmeq⟩ := mem_consExpand hmtbl
    have hcc : c.constructorId = e.constructorId := by rw [← hmpred.1, hmeq]
    have hcr : c.raceId = e.raceId := by rw [← hmpred.2, hmeq]
    -- the matched group's date is the entry's date (this is where DateByRace acts)
    have hcrr : c ∈ consRaceRows (sPrep t) := by
      rw [hsplit2]
      exact List.mem_append.mpr (Or.inr (List.mem_cons_self c suf2))
    obtain ⟨kc, hkc, hkceq⟩ := List.mem_map.mp ((consRaceRows_perm _).mem_iff.mp hcrr)
    obtain ⟨ec, hec, hec1, hec2, hec3⟩ := mem_consKeys.mp hkc
    have hecr : ec.raceId = e.raceId := by
      rw [hec2, ← consAgg_raceId (sPrep t) kc, hkceq, hcr]
    have hecd : ec.date = e.date := hs ec hec e hes hecr
    have hcd : c.date = d := by
      have h1 : some kc.2.2 = some d := by rw [← hec3, hecd, hde]
      rw [← consAgg_date (sPrep t) kc, hkceq] at h1
      exact Option.some_injective _ h1
    have hkeyc : keyC c = (some d, e.raceId) := by
      rw [keyC, hcd, hcr]
    -- the prior groups of the constructor are the strictly earlier groups
    have hsorted2 := consRaceRows_sorted (sPrep t)
    have hdistK : (consRaceRows (sPrep t)).Pairwise
        (fun a b => a.constructorId = b.constructorId → keyC a ≠ keyC b) := by
      refine (consRaceRows_cr_distinct hs).imp ?_
      intro a b hab hg hk
      exact hab ⟨hg, congrArg Prod.snd hk⟩
    rw [hsplit2] at hsorted2 hdistK
    have hsps := filter_sorted_split keyC (fun x => x.constructorId) pre2 suf2 c
      hsorted2 hdistK
    -- rewrite m's strength as a filter over the whole race-level table
    have hstrength : m.constructor_strength_past =
        meanO (((pre2 ++ c :: suf2).filter
          (fun x => x.constructorId == c.constructorId &&
            klt (keyC x) (keyC c))).map (fun x => x.constructor_points)) := by
      rw [hmeq]
      simp only [List.nil_append]
      rw [hsps]
    rw [hstrength, ← hsplit2]
    -- move through the groupby: filter the key list instead of the rows
    have hperm1 : (((consRaceRows (sPrep t)).filter
        (fun x => x.constructorId == c.constructorId && klt (keyC x) (keyC c))).map
          (fun x => x.constructor_points)).Perm
        ((((consKeys (sPrep t)).map (consAgg (sPrep t))).filter
          (fun x => x.constructorId == c.constructorId && klt (keyC x) (keyC c))).map
          (fun x => x.constructor_points)) :=
      ((consRaceRows_perm (sPrep t)).filter _).map _
    rw [meanO_perm hperm1, List.filter_map, List.map_map]
    -- identify the filtered key list with the claim's race keys
    have hfcongr : (consKeys (sPrep t)).filter
        ((fun x => x.constructorId == c.constructorId && klt (keyC x) (keyC c)) ∘
          consAgg (sPrep t)) =
        (consKeys (sPrep t)).filter
          (fun k => k.1 == e.constructorId && klt (some k.2.2, k.2.1) (some d, e.raceId)) := by
      refine List.filter_congr ?_
      intro k hk
      show ((consAgg (sPrep t) k).constructorId == c.constructorId &&
        klt (keyC (consAgg (sPrep t) k)) (keyC c)) = _
      rw [show (consAgg (sPrep t) k).constructorId = k.1 from rfl,
        show keyC (consAgg (sPrep t) k) = (some k.2.2, k.2.1) from rfl,
        hcc, hkeyc]
    rw [hfcongr]
    -- replace the groupby sums by the claim's per-race team sums
    have hmapc : ((consKeys (sPrep t)).filter
        (fun k => k.1 == e.constructorId &&
          klt (some k.2.2, k.2.1) (some d, e.raceId))).map
        ((fun x => x.constructor_points) ∘ consAgg (sPrep t)) =
        ((consKeys (sPrep t)).filter
          (fun k => k.1 == e.constructorId &&
            klt (some k.2.2, k.2.1) (some d, e.raceId))).map
          ((specTeamPoints t e.constructorId) ∘ (fun k => (k.2.2, k.2.1))) := by
      refine List.map_congr_left ?_
      intro k hk
      have hk1 : k.1 = e.constructorId := by
        have := (List.mem_filter.mp hk).2
        simp only [Bool.and_eq_true, beq_iff_eq] at this
        exact this.1
      show (consAgg (sPrep t) k).constructor_points = _
      rw [consAgg_points_spec t k, hk1]
      rfl
    rw [hmapc, ← List.map_map]
    -- finally, the permutation of race keys
    have hpermk := (specKeys_perm t e.constructorId d e.raceId).map
      (specTeamPoints t e.constructorId)
    rw [meanO_perm hpermk, specStrengthPast, hce, hre]

/-- Table for the C3 counterexample: one race of constructor 2 carrying two
distinct dates. -/
def tblTwoDates : List FlagRow :=
  [mkFlag 1 2 5 (some 10) (some 7), mkFlag 2 2 5 (some 11) (some 9)]

/-- Counterexample to C3 as stated: with two dates inside one race, an output
row with a parseable date matches the race's *later* date group and receives
a strength computed from the same race's other date group — not the mean over
the strictly earlier races, which is empty here. -/
theorem C3_counterexample :
    ∃ o ∈ add_time_aware_aggregates tblTwoDates,
      o.date = some 10 ∧
      o.constructor_strength_past ≠
        specStrengthPast tblTwoDates o.constructorId 10 o.raceId := by
  with_unfolding_all decide

set_option maxRecDepth 10000 in
/-- Witness for C3's amended statement at a teammate row of race 2 of the
shared-race table: its strength is the expanding mean of the prior race's
summed team points. -/
theorem C3_witness :
    ((add_time_aware_aggregates tblTeam).getD 2 agg2000).constructor_strength_past =
      specStrengthPast tblTeam
        ((add_time_aware_aggregates tblTeam).getD 2 agg2000).constructorId 7
        ((add_time_aware_aggregates tblTeam).getD 2 agg2000).raceId :=
  C3_constructor_strength tblTeam (by unfold DateByRace; decide)
    ((add_time_aware_aggregates tblTeam).getD 2 agg2000)
    (by with_unfolding_all decide) 7 (by with_unfolding_all decide)

end F1
